import Mathlib

set_option maxRecDepth 8000

/-!
Verification model of the kueue admission-control core (Resource Inventory,
Admission Queue, Scheduler). The repository slice ships only the integration
test framework, the test builder wrappers and the controller setup glue; the
core itself (package cache, package queue and the scheduler) is not among the
source files. Following the specification document, the definitions below are
therefore modelled from the spec, each marked `Modelled from the spec:`; the
status vocabulary (condition reasons and messages) and the resource
normalization expectations are anchored in the shipped test files
(test/integration/framework/framework.go and the AdjustResources test).
-/

namespace KModel

/-- Quantities are modelled as integers (the resource.Quantity values of the
source are fixed-point decimals; the claims only use integral arithmetic). -/
abbrev Qty := Int

/-- Value lookup in an association list of (resource name, quantity); a
missing key reads as 0. -/
def getQ (l : List (String × Qty)) (r : String) : Qty :=
  match l.find? (fun e => decide (e.1 = r)) with
  | some e => e.2
  | none => 0

/-- Whether a resource name carries an explicit entry in the list. -/
def hasQ (l : List (String × Qty)) (r : String) : Bool :=
  (l.find? (fun e => decide (e.1 = r))).isSome

/-- Usage ledgers are keyed by (resource name, flavor name). -/
abbrev UKey := String × String

/-- Modelled from the spec: a quota entry `(resourceName, flavorRef) →
Guaranteed, optional Ceiling` (spec section 3, "Quota entry"). -/
structure FlavorQuota where
  name : String
  guaranteed : Qty
  ceiling : Option Qty
deriving DecidableEq, Repr

/-- Modelled from the spec: the ordered list of quota entries a pool declares
for one resource; list order is assignment preference. -/
structure ResourceQuota where
  resource : String
  flavors : List FlavorQuota
deriving DecidableEq, Repr

/-- Modelled from the spec: the two queueing strategies of a ClusterQueue. -/
inductive Strategy where
  | strictFIFO
  | bestEffortFIFO
deriving DecidableEq, Repr

/-- Modelled from the spec: the declared part of a ClusterQueue (resource
pool): identity, optional cohort name, queueing strategy, ordered quota
entries per resource. -/
structure PoolSpec where
  name : String
  cohort : Option String
  strategy : Strategy
  resources : List ResourceQuota
deriving DecidableEq, Repr

/-- Modelled from the spec: the live part of a pool in the Resource
Inventory: its declaration, the `active` flag (false iff a referenced flavor
is missing), the usage ledger Total per (resource, flavor), and the
pending/admitted counters. Borrowed is the portion of usage that exceeds
Guaranteed (spec glossary) and is read off through `borrowedOf`. -/
structure Pool where
  spec : PoolSpec
  active : Bool
  usage : UKey → Qty
  pendingCount : Int
  admittedCount : Int

/-- Modelled from the spec: the Resource Inventory owns the set of existing
ResourceFlavors (by name) and the pools. -/
structure Inventory where
  flavors : List String
  pools : List Pool

/-- Flavor names referenced by a pool declaration, in declaration order. -/
def refsOf (s : PoolSpec) : List String :=
  s.resources.flatMap (fun rq => rq.flavors.map (fun fq => fq.name))

/-- Modelled from the spec: a pool is active iff every referenced flavor
currently exists (spec section 3: active flag false iff any referenced flavor
is currently missing). -/
def activeFor (fl : List String) (s : PoolSpec) : Bool :=
  (refsOf s).all (fun x => decide (x ∈ fl))

/-- First pool carrying the given name. -/
def findPool (inv : Inventory) (n : String) : Option Pool :=
  inv.pools.find? (fun p => decide (p.spec.name = n))

/-- The quota entry a pool declares for (resource, flavor), if any. -/
def findQuota (s : PoolSpec) (r f : String) : Option FlavorQuota :=
  match s.resources.find? (fun rq => decide (rq.resource = r)) with
  | some rq => rq.flavors.find? (fun fq => decide (fq.name = f))
  | none => none

/-- The declared flavor list of a pool for one resource (empty when the
resource is not declared). -/
def flavorsOf (s : PoolSpec) (r : String) : List FlavorQuota :=
  match s.resources.find? (fun rq => decide (rq.resource = r)) with
  | some rq => rq.flavors
  | none => []

/-- Modelled from the spec glossary: Borrowed is the portion of current usage
that exceeds Guaranteed; zero for an undeclared pair. -/
def borrowedOf (p : Pool) (r f : String) : Qty :=
  match findQuota p.spec r f with
  | some fq => max (p.usage (r, f) - fq.guaranteed) 0
  | none => 0

/-- Recompute one pool's active flag against a flavor list; nothing else of
the pool changes. -/
def refreshed (fl : List String) (p : Pool) : Pool :=
  { p with active := activeFor fl p.spec }

/-- Modelled from the spec: `UpsertFlavor` adds a previously missing flavor
and re-activates every pool that references it; no usage is touched. -/
def upsertFlavor (inv : Inventory) (f : String) : Inventory :=
  let fl := if f ∈ inv.flavors then inv.flavors else f :: inv.flavors
  ⟨fl, inv.pools.map (refreshed fl)⟩

/-- Modelled from the spec: `DeleteFlavor` removes the flavor and deactivates
every pool that references it; admissions already counted stay counted, so
the usage ledger is untouched. -/
def deleteFlavor (inv : Inventory) (f : String) : Inventory :=
  let fl := inv.flavors.filter (fun x => decide (x ≠ f))
  ⟨fl, inv.pools.map (refreshed fl)⟩

/-- Modelled from the spec, section 3: a declared quota entry has Ceiling ≥
Guaranteed ≥ 0, and the declaration lists are keyed lists (no resource and no
flavor is declared twice). -/
def wellFormed (s : PoolSpec) : Prop :=
  (s.resources.map (fun rq => rq.resource)).Nodup ∧
  ∀ rq ∈ s.resources, (rq.flavors.map (fun fq => fq.name)).Nodup ∧
    ∀ fq ∈ rq.flavors, 0 ≤ fq.guaranteed ∧ ∀ c, fq.ceiling = some c → fq.guaranteed ≤ c

instance : DecidablePred wellFormed := fun s => by
  unfold wellFormed; infer_instance

/-- Modelled from the spec, section 7: an operation whose outcome would leave
usage negative or above a Ceiling is an InvariantViolation and must abort
without partial mutation; this check realises that rule for one pool. -/
def usageOK (s : PoolSpec) (u : UKey → Qty) : Prop :=
  ∀ rq ∈ s.resources, ∀ fq ∈ rq.flavors,
    0 ≤ u (rq.resource, fq.name) ∧ ∀ c, fq.ceiling = some c → u (rq.resource, fq.name) ≤ c

instance (s : PoolSpec) (u : UKey → Qty) : Decidable (usageOK s u) := by
  unfold usageOK; infer_instance

/-- Whether the inventory has a pool of this name. -/
def hasPool (inv : Inventory) (n : String) : Bool :=
  inv.pools.any (fun p => decide (p.spec.name = n))

/-- Modelled from the spec: `UpsertPool` installs or replaces a pool
declaration, recomputing the active flag from current flavor availability and
keeping already-committed usage; by the section 7 error rule it aborts (state
unchanged) when the new declaration is malformed or would leave existing
usage above a new Ceiling. -/
def upsertPool (inv : Inventory) (s : PoolSpec) : Inventory :=
  if wellFormed s then
    if hasPool inv s.name then
      { inv with pools := inv.pools.map (fun p =>
          if p.spec.name = s.name then
            if usageOK s p.usage then { p with spec := s, active := activeFor inv.flavors s }
            else p
          else p) }
    else
      { inv with pools := inv.pools ++ [⟨s, activeFor inv.flavors s, fun _ => 0, 0, 0⟩] }
  else inv

/-- Modelled from the spec: `DeletePool` removes the named pool; deleting an
unknown name is NotFound, reported with the state unchanged. -/
def deletePool (inv : Inventory) (n : String) : Inventory :=
  if hasPool inv n then
    { inv with pools := inv.pools.filter (fun p => decide (p.spec.name ≠ n)) }
  else inv

/-- One PodSet as normalization hands it to the core: name, replica count and
per-pod aggregated resource requests. -/
structure PodSet where
  name : String
  count : Nat
  requests : List (String × Qty)
deriving DecidableEq, Repr

/-- Per-resource request of one PodSet, replicas included. -/
def reqIn (ps : PodSet) (r : String) : Qty :=
  (((ps.requests.filter (fun e => decide (e.1 = r))).map (fun e => e.2)).sum) * (ps.count : Int)

/-- Modelled from the spec: the quantity of one resource requested across all
PodSets of a workload. -/
def requestedIn (pss : List PodSet) (r : String) : Qty :=
  (pss.map (fun ps => reqIn ps r)).sum

/-- The resources required across all PodSets (positive aggregate request),
deduplicated, in first-appearance order. -/
def requiredRes (pss : List PodSet) : List String :=
  ((pss.flatMap (fun ps => ps.requests.map (fun e => e.1))).dedup).filter
    (fun r => decide (0 < requestedIn pss r))

/-- Unused guaranteed quota of one pool for (resource, flavor): how much of
its Guaranteed the pool leaves idle. -/
def idleOf (p : Pool) (r f : String) : Qty :=
  match findQuota p.spec r f with
  | some fq => max (fq.guaranteed - p.usage (r, f)) 0
  | none => 0

/-- The pools a cohort headroom computation ranges over: the pools sharing
the cohort name; a pool with no cohort forms a group of its own (required by
spec section 8 Scenario B, where a pool without a cohort still borrows up to
its Ceiling). -/
def cohortMembers (snap : Inventory) (co : Option String) (selfName : String) : List Pool :=
  match co with
  | some c => snap.pools.filter (fun p => decide (p.spec.cohort = some c))
  | none => snap.pools.filter (fun p => decide (p.spec.name = selfName))

/-- Modelled from the spec glossary: cohort free headroom is the cohort-wide
idle guaranteed quota for (resource, flavor), computed from a snapshot. -/
def freeHeadroom (snap : Inventory) (co : Option String) (selfName r f : String) : Qty :=
  ((cohortMembers snap co selfName).map (fun p => idleOf p r f)).sum

/-- Modelled from the spec: a flavor fits without borrowing when its unused
guaranteed quota covers the full request: Guaranteed − Total ≥ requested. -/
def fitNoBorrow (p : Pool) (r : String) (req : Qty) (fq : FlavorQuota) : Bool :=
  decide (req ≤ fq.guaranteed - p.usage (r, fq.name))

/-- Modelled from the spec: a flavor admits borrowing when it declares a
Ceiling and min(Ceiling − Total, cohortFreeHeadroom) ≥ requested −
(Guaranteed − Total). -/
def fitBorrow (snap : Inventory) (p : Pool) (r : String) (req : Qty) (fq : FlavorQuota) : Bool :=
  match fq.ceiling with
  | some c => decide (req - (fq.guaranteed - p.usage (r, fq.name)) ≤
      min (c - p.usage (r, fq.name)) (freeHeadroom snap p.spec.cohort p.spec.name r fq.name))
  | none => false

/-- Modelled from the spec: scan the declared flavors of a resource in
declared order; pick the first that fits without borrowing, and only if none
does, the first that fits with borrowing. -/
def chooseFlavor (snap : Inventory) (p : Pool) (r : String) (req : Qty) : Option String :=
  match (flavorsOf p.spec r).find? (fitNoBorrow p r req) with
  | some fq => some fq.name
  | none =>
    match (flavorsOf p.spec r).find? (fitBorrow snap p r req) with
    | some fq => some fq.name
    | none => none

/-- An assignment maps each required resource to a flavor and carries the
assigned quantity. -/
abbrev Assignment := List (String × String × Qty)

/-- Flavor choice for every required resource; fails as a whole when one
resource has no satisfying flavor. -/
def assignAll (snap : Inventory) (p : Pool) (pss : List PodSet) : List String → Option Assignment
  | [] => some []
  | r :: rs =>
    match chooseFlavor snap p r (requestedIn pss r) with
    | none => none
    | some f =>
      match assignAll snap p pss rs with
      | none => none
      | some rest => some ((r, f, requestedIn pss r) :: rest)

/-- Modelled from the spec: `TryFit`. The pool's own Total is read from the
live inventory `inv`; cohort free headroom is computed from the snapshot
`snap` (the scheduler passes the cycle-start snapshot, spec section 4.3; a
direct caller passes the inventory itself). Unknown and inactive pools never
fit, and no partial assignment is ever returned. -/
def tryFit (inv snap : Inventory) (n : String) (pss : List PodSet) : Option Assignment :=
  match findPool inv n with
  | none => none
  | some p => if p.active then assignAll snap p pss (requiredRes pss) else none

/-- Pointwise effect of an assignment on a usage ledger: each key gains the
sum of the quantities assigned to it. -/
def addA (u : UKey → Qty) (a : Assignment) : UKey → Qty :=
  fun k => u k + ((a.filter (fun e => decide ((e.1, e.2.1) = k))).map (fun e => e.2.2)).sum

/-- Pointwise inverse of `addA`. -/
def subA (u : UKey → Qty) (a : Assignment) : UKey → Qty :=
  fun k => u k - ((a.filter (fun e => decide ((e.1, e.2.1) = k))).map (fun e => e.2.2)).sum

/-- Modelled from the spec: `Commit` adds the assignment into the usage
ledger of the named pool, increments the admitted counter and decrements the
pending counter; by the section 7 rule it aborts without partial mutation when
the outcome would breach an invariant. -/
def commit (inv : Inventory) (n : String) (a : Assignment) : Inventory :=
  { inv with pools := inv.pools.map (fun p =>
      if p.spec.name = n then
        if usageOK p.spec (addA p.usage a) then
          { p with usage := addA p.usage a,
                   admittedCount := p.admittedCount + 1,
                   pendingCount := p.pendingCount - 1 }
        else p
      else p) }

/-- Modelled from the spec: `Release` is the inverse of `Commit`, invoked
when an externally triggered deletion or eviction removes an admitted
workload; it subtracts the assignment and decrements the admitted counter,
aborting on an invariant breach. -/
def release (inv : Inventory) (n : String) (a : Assignment) : Inventory :=
  { inv with pools := inv.pools.map (fun p =>
      if p.spec.name = n then
        if usageOK p.spec (subA p.usage a) then
          { p with usage := subA p.usage a,
                   admittedCount := p.admittedCount - 1 }
        else p
      else p) }

/-- A workload as the Admission Queue sees it: identity, owning queue name,
PodSets, priority value and creation time. -/
structure Workload where
  id : Nat
  queueName : String
  podSets : List PodSet
  priority : Int
  created : Nat
deriving DecidableEq, Repr

/-- Modelled from the spec: the pending-set comparator, applied per pool:
creation time ascending, then priority value descending, then identity
ascending. -/
def wlLess (a b : Workload) : Bool :=
  if a.created < b.created then true
  else if b.created < a.created then false
  else if b.priority < a.priority then true
  else if a.priority < b.priority then false
  else decide (a.id < b.id)

/-- A client-facing queue: identity and target pool reference. -/
structure QueueDef where
  name : String
  clusterQueue : String
deriving DecidableEq, Repr

/-- Modelled from the spec: the Admission Queue (queue manager): the named
queues, the pool names it knows, and the ordered pending set per pool. -/
structure QMgr where
  queues : List QueueDef
  poolNames : List String
  pending : String → List Workload

/-- The ordered pending set of one pool. -/
def pendingOf (qm : QMgr) (p : String) : List Workload := qm.pending p

/-- Ordered insertion by the pending-set comparator. -/
def insertSorted (w : Workload) : List Workload → List Workload
  | [] => [w]
  | x :: xs => if wlLess w x then w :: x :: xs else x :: insertSorted w xs

/-- The outcome `Enqueue` reports: the updated manager, whether the workload
entered a pending set, and the status message/reason handed to the external
status reporter when it did not. -/
structure EnqResult where
  qm : QMgr
  inserted : Bool
  message : Option String
  reason : Option String

/-- Modelled from the spec and the workload controller integration tests:
`Enqueue` rejects a workload whose queue is unknown with message
`Queue <name> doesn\x27t exist`, and one whose queue targets an unknown pool
with `ClusterQueue <name> doesn\x27t exist`; in both cases nothing is
inserted and the workload is left Pending. Otherwise the workload enters the
target pool's ordered pending set. -/
def enqueue (qm : QMgr) (wl : Workload) : EnqResult :=
  match qm.queues.find? (fun q => decide (q.name = wl.queueName)) with
  | none => ⟨qm, false, some ("Queue " ++ wl.queueName ++ " doesn\x27t exist"), some "Pending"⟩
  | some q =>
    if qm.poolNames.contains q.clusterQueue then
      ⟨{ qm with pending := fun pn =>
          if pn = q.clusterQueue then insertSorted wl (qm.pending pn) else qm.pending pn },
       true, none, none⟩
    else
      ⟨qm, false, some ("ClusterQueue " ++ q.clusterQueue ++ " doesn\x27t exist"), some "Pending"⟩

/-- Modelled from the spec: `Pop` removes a specific workload key from a
pool's pending set. -/
def pop (qm : QMgr) (poolName : String) (wl : Workload) : QMgr :=
  { qm with pending := fun q =>
      if q = poolName then (qm.pending q).filter (fun x => decide (x.id ≠ wl.id))
      else qm.pending q }

/-- Modelled from framework.go (ExpectWorkloadsToBeFrozen): the status
reported for a pending workload whose pool is present but inactive: condition
Admitted=False, reason Inadmissible, message `ClusterQueue <name> is
inactive`; nothing is reported here for an active pool. -/
def frozenReport (inv : Inventory) (n : String) : Option (String × String) :=
  match findPool inv n with
  | some p => if p.active then none
      else some ("Inadmissible", "ClusterQueue " ++ n ++ " is inactive")
  | none => none

/-- Outcome of one attempt of the external persistence step. -/
inductive POutcome where
  | success
  | conflict
  | failure
deriving DecidableEq, Repr

/-- Modelled from the spec, section 7: recording the Admission is retried a
bounded number of times on PersistenceConflict; a hard failure or exhaustion
of the bound reports failure. `oracle i` is the outcome of attempt `i`. -/
def persistRetry (oracle : Nat → POutcome) : Nat → Nat → Bool
  | _, 0 => false
  | i, b + 1 =>
    match oracle i with
    | POutcome.success => true
    | POutcome.failure => false
    | POutcome.conflict => persistRetry oracle (i + 1) b

/-- Modelled from the spec, section 4.3 steps 3 and 4: handle one feasible
candidate: compute the assignment with `TryFit` against the cycle snapshot,
hand it to persistence, and only on persistence success `Commit` it and `Pop`
the workload; on any persistence failure the assignment is discarded and the
state is left untouched. The returned flag is true exactly when `Commit` was
invoked. -/
def scheduleOne (snap : Inventory) (persistOK : Bool) (inv : Inventory) (qm : QMgr)
    (poolName : String) (w : Workload) : Inventory × QMgr × Bool :=
  match tryFit inv snap poolName w.podSets with
  | none => (inv, qm, false)
  | some a =>
    if persistOK then (commit inv poolName a, pop qm poolName w, true)
    else (inv, qm, false)

/-- Result of walking one pool's candidates in a cycle. -/
structure CycleRes where
  inv : Inventory
  qm : QMgr
  admitted : List Workload
  infeasible : List Workload

/-- Modelled from the spec, section 4.3: walk the pool's ordered candidates.
Under StrictFIFO the walk stops at the first candidate that is not admitted
(infeasible, or feasible but failing persistence: an earlier-ordered workload
that stays pending forbids admitting any later one); under BestEffortFIFO a
non-fitting or non-persisted candidate is skipped and the walk continues.
`persist w.id` is the outcome of the bounded persistence step for workload
`w`. Commits apply to the live inventory; headroom checks read the
cycle-start snapshot `snap`. -/
def runPool (snap : Inventory) (persist : Nat → Bool) (strat : Strategy) (poolName : String) :
    Inventory → QMgr → List Workload → CycleRes
  | inv, qm, [] => ⟨inv, qm, [], []⟩
  | inv, qm, w :: rest =>
    match tryFit inv snap poolName w.podSets with
    | none =>
      match strat with
      | Strategy.strictFIFO => ⟨inv, qm, [], [w]⟩
      | Strategy.bestEffortFIFO =>
        let r := runPool snap persist strat poolName inv qm rest
        ⟨r.inv, r.qm, r.admitted, w :: r.infeasible⟩
    | some a =>
      if persist w.id then
        let r := runPool snap persist strat poolName
          (commit inv poolName a) (pop qm poolName w) rest
        ⟨r.inv, r.qm, w :: r.admitted, r.infeasible⟩
      else
        match strat with
        | Strategy.strictFIFO => ⟨inv, qm, [], []⟩
        | Strategy.bestEffortFIFO => runPool snap persist strat poolName inv qm rest

/-- One container of a workload as submitted: explicit resource requests and
resource limits. -/
structure Container where
  requests : List (String × Qty)
  limits : List (String × Qty)
deriving DecidableEq, Repr

/-- A PodSet before normalization: name, replica count and containers. -/
structure RawPodSet where
  name : String
  count : Nat
  containers : List Container
deriving DecidableEq, Repr

/-- Modelled from the spec, section 6 (and the AdjustResources unit test in
the repository): a container's request for a resource is raised to its
declared limit exactly when the request is absent and a limit is set; a
present request is left unchanged, and limits are never modified. -/
def adjustContainer (c : Container) : Container :=
  { c with requests := c.requests ++ c.limits.filter (fun e => !(hasQ c.requests e.1)) }

/-- RuntimeClass objects as the normalization step sees them: name and
per-pod overhead. -/
abbrev RCList := List (String × List (String × Qty))

/-- Lookup of the referenced RuntimeClass, if one is referenced and exists. -/
def lookupRC (rcs : RCList) (n : Option String) : Option (List (String × Qty)) :=
  match n with
  | none => none
  | some nm => (rcs.find? (fun e => decide (e.1 = nm))).map (fun e => e.2)

/-- Modelled from the spec, section 6, and the RuntimeClass integration
tests: the pod overhead added by the referenced runtime class; zero overhead
when no class is referenced or the named class does not exist. -/
def overheadOf (rcs : RCList) (n : Option String) : List (String × Qty) :=
  (lookupRC rcs n).getD []

/-- Resource names occurring in a raw PodSet's adjusted containers or in the
overhead. -/
def podKeys (ps : RawPodSet) (ov : List (String × Qty)) : List String :=
  ((ps.containers.flatMap (fun c => (adjustContainer c).requests.map (fun e => e.1))) ++
    ov.map (fun e => e.1)).dedup

/-- Modelled from the spec, section 6: normalization resolves each PodSet's
per-pod requests: limits defaulted into absent requests per container, summed
across containers, plus the runtime-class overhead once per pod (the replica
count multiplies in through `reqIn` when the core aggregates). -/
def normalizePodSet (rcs : RCList) (rcn : Option String) (ps : RawPodSet) : PodSet :=
  { name := ps.name
    count := ps.count
    requests := (podKeys ps (overheadOf rcs rcn)).map (fun r =>
      (r, (ps.containers.map (fun c => getQ (adjustContainer c).requests r)).sum +
          getQ (overheadOf rcs rcn) r)) }

/-- The Resource Inventory operations of spec section 4.1, as one type, for
stating that each of them preserves the usage invariants. -/
inductive Op where
  | upFlavor (f : String)
  | delFlavor (f : String)
  | upPool (s : PoolSpec)
  | delPool (n : String)
  | tryFitOp (snap : Inventory) (n : String) (pss : List PodSet)
  | commitOp (n : String) (a : Assignment)
  | releaseOp (n : String) (a : Assignment)

/-- State effect of one inventory operation; `TryFit` reads but never
mutates. -/
def applyOp (op : Op) (inv : Inventory) : Inventory :=
  match op with
  | Op.upFlavor f => upsertFlavor inv f
  | Op.delFlavor f => deleteFlavor inv f
  | Op.upPool s => upsertPool inv s
  | Op.delPool n => deletePool inv n
  | Op.tryFitOp _ _ _ => inv
  | Op.commitOp n a => commit inv n a
  | Op.releaseOp n a => release inv n a

/-- The inventory states the system can reach: from the empty inventory by
definition updates, by `Release`, and by `Commit` of an assignment that
`TryFit` computed on the committed-to inventory (the snapshot used for the
cohort headroom may be any inventory, covering the cycle-start snapshots of
the scheduler; in particular two pools of one cohort committing in one cycle
are two such steps sharing one snapshot). -/
inductive Reachable : Inventory → Prop
  | init : Reachable ⟨[], []⟩
  | upFlavor {inv} (f : String) : Reachable inv → Reachable (upsertFlavor inv f)
  | delFlavor {inv} (f : String) : Reachable inv → Reachable (deleteFlavor inv f)
  | upPool {inv} (s : PoolSpec) : Reachable inv → Reachable (upsertPool inv s)
  | delPool {inv} (n : String) : Reachable inv → Reachable (deletePool inv n)
  | commitFit {inv} (snap : Inventory) (n : String) (pss : List PodSet) (a : Assignment) :
      Reachable inv → tryFit inv snap n pss = some a → Reachable (commit inv n a)
  | releaseStep {inv} (n : String) (a : Assignment) : Reachable inv → Reachable (release inv n a)

/-- The structural invariant maintained across reachable states: every pool
declaration is well formed and no declared entry's Total exceeds its
Ceiling. -/
def InvGood (inv : Inventory) : Prop :=
  ∀ p ∈ inv.pools, wellFormed p.spec ∧
    ∀ rq ∈ p.spec.resources, ∀ fq ∈ rq.flavors,
      ∀ c, fq.ceiling = some c → p.usage (rq.resource, fq.name) ≤ c

/-- Every ceilingless declared entry is within its Guaranteed. Scheduling
preserves this (borrowing picks only flavors with a Ceiling); an UpsertPool
that shrinks Guaranteed below existing usage on a ceilingless entry does
not. -/
def EntriesOK (inv : Inventory) : Prop :=
  ∀ p ∈ inv.pools, ∀ rq ∈ p.spec.resources, ∀ fq ∈ rq.flavors,
    fq.ceiling = none → p.usage (rq.resource, fq.name) ≤ fq.guaranteed

instance (inv : Inventory) : Decidable (EntriesOK inv) := by
  unfold EntriesOK; infer_instance

/-- The member pools of a named cohort. -/
def membersOf (inv : Inventory) (co : String) : List Pool :=
  inv.pools.filter (fun p => decide (p.spec.cohort = some co))

/-- Total borrowing of a cohort for (resource, flavor). -/
def sumBorrowed (inv : Inventory) (co r f : String) : Qty :=
  ((membersOf inv co).map (fun p => borrowedOf p r f)).sum

/-- Ceiling − Guaranteed summed over the cohort members that declare a
Ceiling for (resource, flavor); members without a Ceiling contribute 0 here
(they are excluded from the bound). -/
def sumCeilGap (inv : Inventory) (co r f : String) : Qty :=
  ((membersOf inv co).map (fun p =>
    match findQuota p.spec r f with
    | some fq => match fq.ceiling with
      | some c => c - fq.guaranteed
      | none => 0
    | none => 0)).sum

/-- The cohort borrowing bound of spec section 8 for one cohort and one
(resource, flavor). -/
def CohortOK (inv : Inventory) (co r f : String) : Prop :=
  sumBorrowed inv co r f ≤ sumCeilGap inv co r f

instance (inv : Inventory) (co r f : String) : Decidable (CohortOK inv co r f) := by
  unfold CohortOK; infer_instance

/-- Every pool's stored active flag agrees with current flavor
availability. -/
def ActiveOK (inv : Inventory) : Prop :=
  ∀ p ∈ inv.pools, p.active = activeFor inv.flavors p.spec

/-- The claim's ceiling invariant: every declared (resource, flavor) entry
with a Ceiling keeps Total at most Ceiling. -/
def C3Ceil (inv : Inventory) : Prop :=
  ∀ p ∈ inv.pools, ∀ rq ∈ p.spec.resources, ∀ fq ∈ rq.flavors,
    ∀ c, fq.ceiling = some c → p.usage (rq.resource, fq.name) ≤ c

/-- Pool names are unique in the inventory. -/
def PoolNamesOK (inv : Inventory) : Prop :=
  (inv.pools.map (fun p => p.spec.name)).Nodup

/-- The claim's no-borrow condition, stated as a proposition: the flavor's
unused guaranteed quota covers the full request, Guaranteed − Total ≥
requested. -/
def NoBorrowFits (p : Pool) (r : String) (req : Qty) (fq : FlavorQuota) : Prop :=
  req ≤ fq.guaranteed - p.usage (r, fq.name)

/-- The claim's borrowing condition, stated as a proposition: the flavor
declares a Ceiling and min(Ceiling − Total, cohortFreeHeadroom) ≥ requested −
(Guaranteed − Total). -/
def BorrowFits (snap : Inventory) (p : Pool) (r : String) (req : Qty) (fq : FlavorQuota) : Prop :=
  ∃ c, fq.ceiling = some c ∧
    req - (fq.guaranteed - p.usage (r, fq.name)) ≤
      min (c - p.usage (r, fq.name)) (freeHeadroom snap p.spec.cohort p.spec.name r fq.name)

/-- `a` is the first element of `l` satisfying `P`. -/
def FirstWith {α : Type} (l : List α) (P : α → Prop) (a : α) : Prop :=
  ∃ l1 l2, l = l1 ++ a :: l2 ∧ P a ∧ ∀ x ∈ l1, ¬ P x

/-- The claim's flavor choice for one resource: the first declared flavor
whose unused guaranteed quota covers the request, and only when no flavor
does, the first declared flavor that satisfies the borrowing condition. -/
def ChosenSpec (snap : Inventory) (p : Pool) (r : String) (req : Qty) (f : String) : Prop :=
  (∃ fq, fq.name = f ∧ FirstWith (flavorsOf p.spec r) (NoBorrowFits p r req) fq) ∨
  ((∀ fq ∈ flavorsOf p.spec r, ¬ NoBorrowFits p r req fq) ∧
    ∃ fq, fq.name = f ∧ FirstWith (flavorsOf p.spec r) (BorrowFits snap p r req) fq)

/-! Concrete states used by the witnesses, the counterexample and the
scenario replays: the pool of spec section 8 (flavor od, Guaranteed 5,
Ceiling 10, no cohort), the cluster queue of the RuntimeClass integration
tests, and the inputs of the AdjustResources unit test. -/

/-- Flavor od of spec section 8: Guaranteed 5, Ceiling 10. -/
def fqOD : FlavorQuota := ⟨"od", 5, some 10⟩

/-- Pool P1 of spec section 8. -/
def p1spec : PoolSpec := ⟨"P1", none, Strategy.strictFIFO, [⟨"cpu", [fqOD]⟩]⟩

/-- A single-pod PodSet requesting `q` cpu. -/
def psReq (q : Qty) : PodSet := ⟨"main", 1, [("cpu", q)]⟩

/-- Inventory holding flavor od and pool P1, nothing admitted. -/
def inv1 : Inventory := upsertPool (upsertFlavor ⟨[], []⟩ "od") p1spec

/-- Scenario A committed: cpu 3 admitted in P1. -/
def inv2 : Inventory := commit inv1 "P1" [("cpu", "od", 3)]

/-- Scenario B committed: cpu 4 more admitted in P1 (Total 7, Borrowed 2). -/
def inv3 : Inventory := commit inv2 "P1" [("cpu", "od", 4)]

/-- Scenario D: flavor od deleted while P1 holds Total 7. -/
def inv4 : Inventory := deleteFlavor inv3 "od"

/-- Queue manager of the workload controller integration tests: a queue named
queue targets the unknown pool fooclusterqueue. -/
def qm0 : QMgr := ⟨[⟨"queue", "fooclusterqueue"⟩], [], fun _ => []⟩

/-- Workload two of the integration tests: its queue nonCreatedQueue is
unknown. -/
def wl0 : Workload := ⟨1, "nonCreatedQueue", [psReq 1], 0, 0⟩

/-- Workload three of the integration tests: queue known, target pool
unknown. -/
def wl1 : Workload := ⟨2, "queue", [psReq 1], 0, 0⟩

/-- Earlier-created workload requesting cpu 3 (fits pool P1 entirely). -/
def wlA : Workload := ⟨10, "q", [psReq 3], 0, 0⟩

/-- Later-created workload requesting cpu 9 (infeasible on P1 after wlA). -/
def wlB : Workload := ⟨11, "q", [psReq 9], 0, 1⟩

/-- Queue manager whose pool P1 has the ordered pending set [wlA, wlB]. -/
def qm1 : QMgr := ⟨[], ["P1"], fun q => if q = "P1" then [wlA, wlB] else []⟩

/-- One Gi, as the integration quantities use it. -/
def giB : Qty := 1073741824

/-- PodSet a of the AdjustResources test case: no requests, limits cpu 1 and
memory 1Gi. -/
def tcInA : Container := ⟨[], [("cpu", 1), ("memory", giB)]⟩

/-- The test's expected output for PodSet a: requests raised to the limits. -/
def tcWantA : Container := ⟨[("cpu", 1), ("memory", giB)], [("cpu", 1), ("memory", giB)]⟩

/-- PodSet b of the AdjustResources test case: request cpu 2 present, limits
cpu 3 and memory 1Gi. -/
def tcInB : Container := ⟨[("cpu", 2)], [("cpu", 3), ("memory", giB)]⟩

/-- The test's expected output for PodSet b: it asserts request cpu 3 and
limit cpu 2, the two quantities swapped. -/
def tcWantB : Container := ⟨[("cpu", 3), ("memory", giB)], [("cpu", 2), ("memory", giB)]⟩

/-- The workload of the RuntimeClass integration tests: one pod, one
container, request cpu 1, runtime class kata referenced. -/
def rawWl : RawPodSet := ⟨"main", 1, [⟨[("cpu", 1)], []⟩]⟩

/-- RuntimeClass kata with pod overhead cpu 1, as the accumulate test creates
it. -/
def kataRCs : RCList := [("kata", [("cpu", 1)])]

/-- The cluster queue of the RuntimeClass integration tests: resource cpu,
flavor on-demand, Guaranteed 5, Ceiling 10. -/
def cqSpec : PoolSpec := ⟨"clusterqueue", none, Strategy.strictFIFO,
  [⟨"cpu", [⟨"on-demand", 5, some 10⟩]⟩]⟩

/-- Inventory holding the on-demand flavor and the cluster queue. -/
def invCQ : Inventory := upsertPool (upsertFlavor ⟨[], []⟩ "on-demand") cqSpec

/-- Inventory after committing the kata workload's assignment (no overhead
case: quantity 1). -/
def invAfter : Inventory := commit invCQ "clusterqueue" [("cpu", "on-demand", 1)]

/-- Declaration of pool A for the cohort-bound counterexample: cohort co,
resource cpu, flavor f with Guaranteed 5 and no Ceiling. -/
def cexSpec1 : PoolSpec := ⟨"A", some "co", Strategy.strictFIFO, [⟨"cpu", [⟨"f", 5, none⟩]⟩]⟩

/-- The same pool re-declared with Guaranteed shrunk to 1, still no
Ceiling. -/
def cexSpec2 : PoolSpec := ⟨"A", some "co", Strategy.strictFIFO, [⟨"cpu", [⟨"f", 1, none⟩]⟩]⟩

/-- Counterexample state 1: flavor f exists, pool A declared, no usage. -/
def cexInv1 : Inventory := upsertPool (upsertFlavor ⟨[], []⟩ "f") cexSpec1

/-- Counterexample state 2: cpu 4 admitted in A (within Guaranteed 5). -/
def cexInv2 : Inventory := commit cexInv1 "A" [("cpu", "f", 4)]

/-- Counterexample state 3: pool A re-declared with Guaranteed 1 while Total
is 4: Borrowed becomes 3 on an entry with no Ceiling. -/
def cexInv3 : Inventory := upsertPool cexInv2 cexSpec2

/-! Helper lemmas. -/

/-- A successful `find?` returns the first element satisfying the predicate:
the list splits at the hit and everything before it fails the predicate. -/
theorem find?_first_iff {α : Type} (P : α → Bool) (a : α) :
    ∀ l : List α, l.find? P = some a ↔
      ∃ l1 l2, l = l1 ++ a :: l2 ∧ P a = true ∧ ∀ x ∈ l1, P x = false := by
  intro l
  induction l with
  | nil => simp
  | cons b t ih =>
    by_cases hb : P b = true
    · rw [List.find?_cons_of_pos _ hb]
      constructor
      · intro h
        obtain rfl : b = a := by injection h
        exact ⟨[], t, rfl, hb, by intro x hx; cases hx⟩
      · rintro ⟨l1, l2, hl, hPa, hfail⟩
        cases l1 with
        | nil =>
          obtain rfl : b = a := by injection hl
          rfl
        | cons c l1t =>
          have hc : c = b := by injection hl with h1 _; exact h1.symm
          have : P c = false := hfail c (by simp)
          rw [hc] at this
          rw [this] at hb
          cases hb
    · rw [List.find?_cons_of_neg _ hb]
      rw [ih]
      constructor
      · rintro ⟨l1, l2, hl, hPa, hfail⟩
        refine ⟨b :: l1, l2, by rw [hl]; rfl, hPa, ?_⟩
        intro x hx
        rcases List.mem_cons.mp hx with rfl | hx2
        · exact Bool.eq_false_iff.mpr fun h => hb h
        · exact hfail x hx2
      · rintro ⟨l1, l2, hl, hPa, hfail⟩
        cases l1 with
        | nil =>
          obtain rfl : b = a := by injection hl
          exact absurd hPa hb
        | cons c l1t =>
          have hc : c = b := by injection hl with h1 _; exact h1.symm
          have ht : t = l1t ++ a :: l2 := by injection hl
          exact ⟨l1t, l2, ht, hPa, fun x hx => hfail x (by simp [hx])⟩

/-- Reading an association list at a key none of its entries carries gives
0. -/
theorem getQ_zero_of_not_mem (l : List (String × Qty)) (x : String)
    (hx : x ∉ l.map (fun e => e.1)) : getQ l x = 0 := by
  unfold getQ
  have h : l.find? (fun e => decide (e.1 = x)) = none := by
    rw [List.find?_eq_none]
    intro e he
    simp only [decide_eq_true_eq]
    intro hex
    exact hx (hex ▸ List.mem_map_of_mem (fun e2 => e2.1) he)
  rw [h]

/-- Reading a list built by tabulating a function over keys. -/
theorem getQ_map_keys (v : String → Qty) (x : String) :
    ∀ keys : List String,
      getQ (keys.map (fun r => (r, v r))) x = if x ∈ keys then v x else 0 := by
  intro keys
  induction keys with
  | nil => simp [getQ]
  | cons k ks ih =>
    by_cases hk : k = x
    · subst hk
      unfold getQ
      rw [List.map_cons, List.find?_cons_of_pos _ (by simp)]
      simp
    · unfold getQ at ih ⊢
      rw [List.map_cons, List.find?_cons_of_neg _ (by simp [hk])]
      rw [ih]
      have hmem : (x ∈ k :: ks) ↔ (x ∈ ks) := by
        constructor
        · intro h
          rcases List.mem_cons.mp h with h1 | h2
          · exact absurd h1.symm hk
          · exact h2
        · exact fun h => List.mem_cons_of_mem _ h
      rw [if_congr hmem.symm rfl rfl]

set_option maxHeartbeats 1600000 in
/-- Replay of spec section 8, Scenarios A, B, C and D on the model: cpu 3
fits within Guaranteed; cpu 4 more is admitted borrowing 2 against the
Ceiling with no cohort; cpu 10 more is infeasible; deleting flavor od leaves
Total 7 but deactivates P1. -/
theorem spec_scenarios_replay :
    tryFit inv1 inv1 "P1" [psReq 3] = some [("cpu", "od", 3)] ∧
    (findPool inv2 "P1").map (fun p => (p.usage ("cpu", "od"), borrowedOf p "cpu" "od")) =
      some (3, 0) ∧
    tryFit inv2 inv2 "P1" [psReq 4] = some [("cpu", "od", 4)] ∧
    (findPool inv3 "P1").map (fun p => (p.usage ("cpu", "od"), borrowedOf p "cpu" "od")) =
      some (7, 2) ∧
    tryFit inv3 inv3 "P1" [psReq 10] = none ∧
    (findPool inv4 "P1").map (fun p => (p.active, p.usage ("cpu", "od"))) = some (false, 7) ∧
    frozenReport inv4 "P1" = some ("Inadmissible", "ClusterQueue P1 is inactive") := by
  decide

/-- Arithmetic characterization of the comparator: lexicographic with
creation time ascending, priority descending, identity ascending. -/
theorem wlLess_iff (a b : Workload) : wlLess a b = true ↔
    (a.created < b.created ∨
     (a.created = b.created ∧ b.priority < a.priority) ∨
     (a.created = b.created ∧ a.priority = b.priority ∧ a.id < b.id)) := by
  unfold wlLess
  split_ifs <;> simp_all <;> omega

/-- C6: the pending-set comparator is a deterministic total order: earlier
creation time first; at equal creation times the higher priority value first;
at equal creation and priority the smaller identity first; for two workloads
of distinct identity exactly one direction holds, and the order is
transitive. -/
theorem C6_comparator_total_order (a b c : Workload) :
    (a.created < b.created → wlLess a b = true) ∧
    (a.created = b.created → b.priority < a.priority → wlLess a b = true) ∧
    (a.created = b.created → a.priority = b.priority → a.id < b.id → wlLess a b = true) ∧
    (a.id ≠ b.id → (wlLess a b = true ↔ wlLess b a = false)) ∧
    (wlLess a b = true → wlLess b c = true → wlLess a c = true) := by
  refine ⟨?_, ?_, ?_, ?_, ?_⟩
  · intro h
    rw [wlLess_iff]
    omega
  · intro h1 h2
    rw [wlLess_iff]
    omega
  · intro h1 h2 h3
    rw [wlLess_iff]
    omega
  · intro h
    constructor
    · intro hab
      have hA := (wlLess_iff a b).mp hab
      cases hb : wlLess b a
      · rfl
      · have hB := (wlLess_iff b a).mp hb
        omega
    · intro hba
      have hnb : ¬ (b.created < a.created ∨
          (b.created = a.created ∧ a.priority < b.priority) ∨
          (b.created = a.created ∧ b.priority = a.priority ∧ b.id < a.id)) := by
        intro hx
        rw [(wlLess_iff b a).mpr hx] at hba
        cases hba
      rw [wlLess_iff]
      omega
  · intro h1 h2
    rw [wlLess_iff] at h1 h2 ⊢
    omega

/-- C7: `Enqueue` of a workload whose queue name is unknown inserts nothing
(the manager, hence every pending set, is unchanged) and reports exactly
`Queue <name> doesn\x27t exist`; when the queue is known but its target pool
is unknown, it likewise inserts nothing, reports exactly
`ClusterQueue <name> doesn\x27t exist`, and the workload stays Pending. -/
theorem C7_enqueue_unknown_references (qm : QMgr) (wl : Workload) :
    (qm.queues.find? (fun q => decide (q.name = wl.queueName)) = none →
      enqueue qm wl = ⟨qm, false, some ("Queue " ++ wl.queueName ++ " doesn\x27t exist"),
        some "Pending"⟩) ∧
    (∀ q, qm.queues.find? (fun q2 => decide (q2.name = wl.queueName)) = some q →
      qm.poolNames.contains q.clusterQueue = false →
      enqueue qm wl = ⟨qm, false,
        some ("ClusterQueue " ++ q.clusterQueue ++ " doesn\x27t exist"), some "Pending"⟩) := by
  constructor
  · intro h
    simp [enqueue, h]
  · intro q hq hc
    have hc2 : q.clusterQueue ∉ qm.poolNames := by simpa using hc
    simp [enqueue, hq, hc2]

/-- C9: on the shipped AdjustResources test inputs, the normalization of the
spec (raise a request to the limit exactly when the request is absent) agrees
with the test's expectation for PodSet a, but for PodSet b the test asserts
that the present request cpu 2 becomes 3 and the limit cpu 3 becomes 2 (the
two values swapped); the spec-modelled step leaves the present request at 2
and never modifies limits, so the test expectation contradicts the documented
behavior. -/
theorem C9_adjust_request_present_unchanged :
    adjustContainer tcInA = tcWantA ∧
    adjustContainer tcInB ≠ tcWantB ∧
    getQ tcInB.requests "cpu" = 2 ∧
    getQ (adjustContainer tcInB).requests "cpu" = 2 ∧
    getQ tcWantB.requests "cpu" = 3 ∧
    (adjustContainer tcInB).limits = tcInB.limits ∧
    tcWantB.limits ≠ tcInB.limits := by
  decide

/-- When persistence reports failure, handling a candidate leaves the
inventory, the queue manager and the committed flag untouched. -/
theorem scheduleOne_persist_failed (snap : Inventory) (persistOK : Bool) (inv : Inventory)
    (qm : QMgr) (poolName : String) (w : Workload) (h : persistOK = false) :
    scheduleOne snap persistOK inv qm poolName w = (inv, qm, false) := by
  unfold scheduleOne
  cases tryFit inv snap poolName w.podSets <;> simp [h]

/-- The committed flag rises only when persistence succeeded. -/
theorem scheduleOne_committed_persisted (snap : Inventory) (persistOK : Bool) (inv : Inventory)
    (qm : QMgr) (poolName : String) (w : Workload)
    (h : (scheduleOne snap persistOK inv qm poolName w).2.2 = true) : persistOK = true := by
  by_contra hc
  rw [Bool.not_eq_true] at hc
  rw [scheduleOne_persist_failed snap persistOK inv qm poolName w hc] at h
  cases h

/-- An oracle that reports PersistenceConflict on every attempt exhausts any
retry bound. -/
theorem persistRetry_all_conflict (oracle : Nat → POutcome)
    (h : ∀ i, oracle i = POutcome.conflict) : ∀ b i, persistRetry oracle i b = false := by
  intro b
  induction b with
  | zero => intro i; rfl
  | succ n ih =>
    intro i
    unfold persistRetry
    rw [h i]
    exact ih (i + 1)

/-- C2: `Commit` happens only after the persistence step succeeded: the
committed flag implies persistence success; on every persistence failure,
including exhaustion of the bounded retries on PersistenceConflict, the
computed assignment is discarded with the inventory (usage ledgers and
counters) and the queue manager (so the pool's pending set) left exactly as
they were and `Commit` never invoked. -/
theorem C2_commit_only_after_persistence (snap inv : Inventory) (qm : QMgr)
    (poolName : String) (w : Workload) (oracle : Nat → POutcome) (b : Nat) :
    ((scheduleOne snap (persistRetry oracle 0 b) inv qm poolName w).2.2 = true →
      persistRetry oracle 0 b = true) ∧
    (persistRetry oracle 0 b = false →
      scheduleOne snap (persistRetry oracle 0 b) inv qm poolName w = (inv, qm, false)) ∧
    ((∀ i, oracle i = POutcome.conflict) → persistRetry oracle 0 b = false) := by
  refine ⟨?_, ?_, ?_⟩
  · exact scheduleOne_committed_persisted snap _ inv qm poolName w
  · exact scheduleOne_persist_failed snap _ inv qm poolName w
  · intro h
    exact persistRetry_all_conflict oracle h b 0

/-- C10: a workload referencing a RuntimeClass that does not exist is
normalized with no overhead at all: every per-pod request equals the sum of
the (limit-adjusted) container requests alone. On the integration scenario
(one pod requesting cpu 1, runtime class kata absent) the workload is
admitted and the pool ends at Total 1 with Borrowed 0, while the same
workload with kata existing would carry cpu 2. -/
theorem C10_no_overhead_when_rc_missing :
    (∀ (rcs : RCList) (rcn : Option String) (ps : RawPodSet) (r : String),
      lookupRC rcs rcn = none →
      getQ (normalizePodSet rcs rcn ps).requests r =
        (ps.containers.map (fun c => getQ (adjustContainer c).requests r)).sum) ∧
    (tryFit invCQ invCQ "clusterqueue" [normalizePodSet [] (some "kata") rawWl] =
        some [("cpu", "on-demand", 1)] ∧
      (findPool invAfter "clusterqueue").map
        (fun p => (p.usage ("cpu", "on-demand"), borrowedOf p "cpu" "on-demand")) =
        some (1, 0) ∧
      (normalizePodSet kataRCs (some "kata") rawWl).requests = [("cpu", 2)]) := by
  constructor
  · intro rcs rcn ps r h
    have hov : overheadOf rcs rcn = [] := by
      unfold overheadOf
      rw [h]
      rfl
    simp only [normalizePodSet, hov]
    rw [getQ_map_keys (fun r2 =>
      (ps.containers.map (fun c => getQ (adjustContainer c).requests r2)).sum + getQ [] r2) r]
    by_cases hr : r ∈ podKeys ps []
    · rw [if_pos hr]
      simp [getQ]
    · rw [if_neg hr]
      symm
      apply List.sum_eq_zero
      intro x hx
      rw [List.mem_map] at hx
      obtain ⟨c, hc, rfl⟩ := hx
      apply getQ_zero_of_not_mem
      intro hmem
      apply hr
      unfold podKeys
      rw [List.mem_dedup, List.mem_append]
      left
      rw [List.mem_flatMap]
      exact ⟨c, hc, hmem⟩
  · refine ⟨by decide, by decide, by decide⟩

/-- The boolean no-borrow test decides the claim's no-borrow condition. -/
theorem fitNoBorrow_eq (p : Pool) (r : String) (req : Qty) (fq : FlavorQuota) :
    fitNoBorrow p r req fq = true ↔ NoBorrowFits p r req fq := by
  simp [fitNoBorrow, NoBorrowFits]

/-- The boolean borrowing test decides the claim's borrowing condition. -/
theorem fitBorrow_eq (snap : Inventory) (p : Pool) (r : String) (req : Qty) (fq : FlavorQuota) :
    fitBorrow snap p r req fq = true ↔ BorrowFits snap p r req fq := by
  unfold fitBorrow BorrowFits
  cases h : fq.ceiling with
  | none => simp [h]
  | some c => simp [h]

/-- The model's flavor scan returns exactly the flavor the claim specifies:
first fit without borrowing, otherwise (only when no flavor fits without
borrowing) first fit with borrowing. -/
theorem chooseFlavor_iff (snap : Inventory) (p : Pool) (r : String) (req : Qty) (f : String) :
    chooseFlavor snap p r req = some f ↔ ChosenSpec snap p r req f := by
  unfold chooseFlavor ChosenSpec
  cases h1 : (flavorsOf p.spec r).find? (fitNoBorrow p r req) with
  | some fq =>
    simp only [Option.some.injEq]
    constructor
    · intro h
      subst h
      left
      refine ⟨fq, rfl, ?_⟩
      obtain ⟨l1, l2, hl, hP, hfail⟩ := (find?_first_iff _ fq _).mp h1
      refine ⟨l1, l2, hl, (fitNoBorrow_eq p r req fq).mp hP, ?_⟩
      intro x hx hPx
      have := hfail x hx
      rw [(fitNoBorrow_eq p r req x).mpr hPx] at this
      cases this
    · rintro (⟨fq2, rfl, hfw⟩ | ⟨hall, fq2, rfl, hfw⟩)
      · have h2 : (flavorsOf p.spec r).find? (fitNoBorrow p r req) = some fq2 := by
          rw [find?_first_iff]
          obtain ⟨l1, l2, hl, hP, hfail⟩ := hfw
          refine ⟨l1, l2, hl, (fitNoBorrow_eq p r req fq2).mpr hP, ?_⟩
          intro x hx
          rw [Bool.eq_false_iff]
          intro hPx
          exact hfail x hx ((fitNoBorrow_eq p r req x).mp hPx)
        rw [h1] at h2
        injection h2 with h2
        rw [h2]
      · exfalso
        exact hall fq (List.mem_of_find?_eq_some h1)
          ((fitNoBorrow_eq p r req fq).mp (List.find?_some h1))
  | none =>
    have hallN : ∀ fq ∈ flavorsOf p.spec r, ¬ NoBorrowFits p r req fq := by
      intro fq hm hP
      have := List.find?_eq_none.mp h1 fq hm
      exact this ((fitNoBorrow_eq p r req fq).mpr hP)
    cases h2 : (flavorsOf p.spec r).find? (fitBorrow snap p r req) with
    | some fq =>
      simp only [Option.some.injEq]
      constructor
      · intro h
        subst h
        right
        refine ⟨hallN, fq, rfl, ?_⟩
        obtain ⟨l1, l2, hl, hP, hfail⟩ := (find?_first_iff _ fq _).mp h2
        refine ⟨l1, l2, hl, (fitBorrow_eq snap p r req fq).mp hP, ?_⟩
        intro x hx hPx
        have := hfail x hx
        rw [(fitBorrow_eq snap p r req x).mpr hPx] at this
        cases this
      · rintro (⟨fq2, rfl, hfw⟩ | ⟨_, fq2, rfl, hfw⟩)
        · exfalso
          obtain ⟨l1, l2, hl, hP, _⟩ := hfw
          exact hallN fq2 (by rw [hl]; exact List.mem_append_right l1 (List.mem_cons_self fq2 l2)) hP
        · have h3 : (flavorsOf p.spec r).find? (fitBorrow snap p r req) = some fq2 := by
            rw [find?_first_iff]
            obtain ⟨l1, l2, hl, hP, hfail⟩ := hfw
            refine ⟨l1, l2, hl, (fitBorrow_eq snap p r req fq2).mpr hP, ?_⟩
            intro x hx
            rw [Bool.eq_false_iff]
            intro hPx
            exact hfail x hx ((fitBorrow_eq snap p r req x).mp hPx)
          rw [h2] at h3
          injection h3 with h3
          rw [h3]
    | none =>
      constructor
      · intro h
        cases h
      · rintro (⟨fq2, rfl, hfw⟩ | ⟨_, fq2, rfl, hfw⟩) <;> exfalso
        · obtain ⟨l1, l2, hl, hP, _⟩ := hfw
          exact hallN fq2 (by rw [hl]; exact List.mem_append_right l1 (List.mem_cons_self fq2 l2)) hP
        · obtain ⟨l1, l2, hl, hP, _⟩ := hfw
          have hm : fq2 ∈ flavorsOf p.spec r := by
            rw [hl]
            exact List.mem_append_right l1 (List.mem_cons_self fq2 l2)
          have := List.find?_eq_none.mp h2 fq2 hm
          exact this ((fitBorrow_eq snap p r req fq2).mpr hP)

/-- Resource-by-resource assignment succeeds exactly when every listed
resource gets a flavor, and then the assignment lists exactly those
resources, each with its aggregate request and its scanned flavor choice. -/
theorem assignAll_iff (snap : Inventory) (p : Pool) (pss : List PodSet) :
    ∀ (rs : List String) (A : Assignment),
      assignAll snap p pss rs = some A ↔
        (A.map (fun e => e.1) = rs ∧
         ∀ e ∈ A, e.2.2 = requestedIn pss e.1 ∧
           chooseFlavor snap p e.1 (requestedIn pss e.1) = some e.2.1) := by
  intro rs
  induction rs with
  | nil =>
    intro A
    constructor
    · intro h
      obtain rfl : ([] : Assignment) = A := by injection h
      exact ⟨rfl, by intro e he; cases he⟩
    · rintro ⟨hmap, _⟩
      rw [List.map_eq_nil_iff] at hmap
      rw [hmap]
      rfl
  | cons r rs ih =>
    intro A
    unfold assignAll
    cases hc : chooseFlavor snap p r (requestedIn pss r) with
    | none =>
      constructor
      · intro h
        cases h
      · rintro ⟨hmap, hprops⟩
        cases A with
        | nil => cases hmap
        | cons e A2 =>
          exfalso
          have he1 : e.1 = r := by injection hmap
          have := (hprops e (List.mem_cons_self e A2)).2
          rw [he1] at this
          rw [hc] at this
          cases this
    | some f =>
      cases ha : assignAll snap p pss rs with
      | none =>
        constructor
        · intro h
          cases h
        · rintro ⟨hmap, hprops⟩
          cases A with
          | nil => cases hmap
          | cons e A2 =>
            exfalso
            have hmap2 : A2.map (fun e => e.1) = rs := by injection hmap
            have h2 := (ih A2).mpr ⟨hmap2, fun e2 he2 => hprops e2 (List.mem_cons_of_mem e he2)⟩
            rw [ha] at h2
            cases h2
      | some rest =>
        constructor
        · intro h
          obtain rfl : (r, f, requestedIn pss r) :: rest = A := by injection h
          obtain ⟨hmap, hprops⟩ := (ih rest).mp ha
          refine ⟨by rw [List.map_cons, hmap], ?_⟩
          intro e he
          rcases List.mem_cons.mp he with rfl | he2
          · exact ⟨rfl, hc⟩
          · exact hprops e he2
        · rintro ⟨hmap, hprops⟩
          cases A with
          | nil => cases hmap
          | cons e A2 =>
            have he1 : e.1 = r := by injection hmap
            have hmap2 : A2.map (fun e => e.1) = rs := by injection hmap
            have h2 := (ih A2).mpr ⟨hmap2, fun e2 he2 => hprops e2 (List.mem_cons_of_mem e he2)⟩
            rw [ha] at h2
            obtain rfl : rest = A2 := by injection h2
            obtain ⟨hq, hcf⟩ := hprops e (List.mem_cons_self e rest)
            rw [he1] at hcf
            rw [hc] at hcf
            have he2 : e.2.1 = f := by injection hcf with h3; exact h3.symm
            have : e = (r, f, requestedIn pss r) := by
              obtain ⟨e1, e21, e22⟩ := e
              simp only at he1 he2 hq
              rw [he1, he2]
              rw [he1] at hq
              rw [hq]
            rw [this]

/-- C1: `TryFit` on an unknown pool fails; on an inactive pool it fails
regardless of the request; and it returns an assignment exactly when the pool
is active and every required resource gets, in declared flavor order, the
first flavor whose unused guaranteed quota covers the full request, or when
no flavor does, the first flavor that declares a Ceiling and satisfies
min(Ceiling − Total, cohortFreeHeadroom) ≥ requested − (Guaranteed − Total);
when some required resource has no satisfying flavor the result is `none`,
carrying no partial assignment for any resource. -/
theorem C1_tryFit_first_fit (inv snap : Inventory) (n : String) (pss : List PodSet) :
    (findPool inv n = none → tryFit inv snap n pss = none) ∧
    (∀ p, findPool inv n = some p →
      (p.active = false → tryFit inv snap n pss = none) ∧
      (∀ A, tryFit inv snap n pss = some A ↔
        (p.active = true ∧
         A.map (fun e => e.1) = requiredRes pss ∧
         ∀ e ∈ A, e.2.2 = requestedIn pss e.1 ∧
           ChosenSpec snap p e.1 (requestedIn pss e.1) e.2.1)) ∧
      ((∃ r ∈ requiredRes pss, ∀ f, ¬ ChosenSpec snap p r (requestedIn pss r) f) →
        tryFit inv snap n pss = none)) := by
  refine ⟨?_, ?_⟩
  · intro h
    unfold tryFit
    rw [h]
  · intro p hp
    have hiff : ∀ A, tryFit inv snap n pss = some A ↔
        (p.active = true ∧ A.map (fun e => e.1) = requiredRes pss ∧
         ∀ e ∈ A, e.2.2 = requestedIn pss e.1 ∧
           ChosenSpec snap p e.1 (requestedIn pss e.1) e.2.1) := by
      intro A
      have hred : tryFit inv snap n pss =
          if p.active = true then assignAll snap p pss (requiredRes pss) else none := by
        unfold tryFit
        rw [hp]
      rw [hred]
      by_cases hact : p.active = true
      · rw [if_pos hact]
        constructor
        · intro h
          obtain ⟨hmap, hprops⟩ := (assignAll_iff snap p pss (requiredRes pss) A).mp h
          exact ⟨hact, hmap, fun e he => ⟨(hprops e he).1,
            (chooseFlavor_iff snap p e.1 (requestedIn pss e.1) e.2.1).mp (hprops e he).2⟩⟩
        · rintro ⟨_, hmap, hprops⟩
          exact (assignAll_iff snap p pss (requiredRes pss) A).mpr ⟨hmap, fun e he =>
            ⟨(hprops e he).1,
             (chooseFlavor_iff snap p e.1 (requestedIn pss e.1) e.2.1).mpr (hprops e he).2⟩⟩
      · rw [if_neg hact]
        constructor
        · intro h
          cases h
        · rintro ⟨h, _⟩
          exact absurd h hact
    refine ⟨?_, hiff, ?_⟩
    · intro hact
      have hred : tryFit inv snap n pss =
          if p.active = true then assignAll snap p pss (requiredRes pss) else none := by
        unfold tryFit
        rw [hp]
      rw [hred, if_neg (by rw [hact]; exact Bool.false_ne_true)]
    · rintro ⟨r, hr, hnone⟩
      cases htf : tryFit inv snap n pss with
      | none => rfl
      | some A =>
        exfalso
        obtain ⟨_, hmap, hprops⟩ := (hiff A).mp htf
        have hmem : r ∈ A.map (fun e => e.1) := hmap ▸ hr
        rw [List.mem_map] at hmem
        obtain ⟨e, he, he1⟩ := hmem
        exact hnone e.2.1 (he1 ▸ (hprops e he).2)

/-- Re-deriving the active flags touches neither declarations nor usage, so
it preserves the structural invariant. -/
theorem invGood_mapActive (inv : Inventory) (fl : List String) (h : InvGood inv) :
    InvGood ⟨fl, inv.pools.map (refreshed fl)⟩ := by
  intro p hp
  simp only [List.mem_map] at hp
  obtain ⟨q, hq, rfl⟩ := hp
  exact h q hq

/-- `UpsertFlavor` preserves the structural invariant. -/
theorem invGood_upsertFlavor (inv : Inventory) (f : String) (h : InvGood inv) :
    InvGood (upsertFlavor inv f) :=
  invGood_mapActive inv _ h

/-- `DeleteFlavor` preserves the structural invariant. -/
theorem invGood_deleteFlavor (inv : Inventory) (f : String) (h : InvGood inv) :
    InvGood (deleteFlavor inv f) :=
  invGood_mapActive inv _ h

/-- `UpsertPool` preserves the structural invariant: it validates the new
declaration and the carried usage, and aborts otherwise. -/
theorem invGood_upsertPool (inv : Inventory) (s : PoolSpec) (h : InvGood inv) :
    InvGood (upsertPool inv s) := by
  unfold upsertPool
  by_cases hwf : wellFormed s
  · rw [if_pos hwf]
    by_cases hhp : hasPool inv s.name = true
    · rw [if_pos hhp]
      intro p hp
      simp only [List.mem_map] at hp
      obtain ⟨q, hq, rfl⟩ := hp
      by_cases h1 : q.spec.name = s.name
      · rw [if_pos h1]
        by_cases h2 : usageOK s q.usage
        · rw [if_pos h2]
          refine ⟨hwf, ?_⟩
          intro rq hrq fq hfq c hc
          exact (h2 rq hrq fq hfq).2 c hc
        · rw [if_neg h2]
          exact h q hq
      · rw [if_neg h1]
        exact h q hq
    · rw [if_neg hhp]
      intro p hp
      rcases List.mem_append.mp hp with hmem | hmem
      · exact h p hmem
      · rw [List.mem_singleton.mp hmem]
        refine ⟨hwf, ?_⟩
        intro rq hrq fq hfq c hc
        have hg := (hwf.2 rq hrq).2 fq hfq
        exact le_trans hg.1 (hg.2 c hc)
  · rw [if_neg hwf]
    exact h

/-- `DeletePool` preserves the structural invariant. -/
theorem invGood_deletePool (inv : Inventory) (n : String) (h : InvGood inv) :
    InvGood (deletePool inv n) := by
  unfold deletePool
  by_cases hhp : hasPool inv n = true
  · rw [if_pos hhp]
    intro p hp
    exact h p (List.mem_filter.mp hp).1
  · rw [if_neg hhp]
    exact h

/-- `Commit` preserves the structural invariant: the outcome is validated and
the operation aborts on a breach. -/
theorem invGood_commit (inv : Inventory) (n : String) (a : Assignment) (h : InvGood inv) :
    InvGood (commit inv n a) := by
  intro p hp
  simp only [commit, List.mem_map] at hp
  obtain ⟨q, hq, rfl⟩ := hp
  by_cases h1 : q.spec.name = n
  · rw [if_pos h1]
    by_cases h2 : usageOK q.spec (addA q.usage a)
    · rw [if_pos h2]
      refine ⟨(h q hq).1, ?_⟩
      intro rq hrq fq hfq c hc
      exact (h2 rq hrq fq hfq).2 c hc
    · rw [if_neg h2]
      exact h q hq
  · rw [if_neg h1]
    exact h q hq

/-- `Release` preserves the structural invariant the same way. -/
theorem invGood_release (inv : Inventory) (n : String) (a : Assignment) (h : InvGood inv) :
    InvGood (release inv n a) := by
  intro p hp
  simp only [release, List.mem_map] at hp
  obtain ⟨q, hq, rfl⟩ := hp
  by_cases h1 : q.spec.name = n
  · rw [if_pos h1]
    by_cases h2 : usageOK q.spec (subA q.usage a)
    · rw [if_pos h2]
      refine ⟨(h q hq).1, ?_⟩
      intro rq hrq fq hfq c hc
      exact (h2 rq hrq fq hfq).2 c hc
    · rw [if_neg h2]
      exact h q hq
  · rw [if_neg h1]
    exact h q hq

/-- Every inventory operation preserves the structural invariant. -/
theorem invGood_applyOp (op : Op) (inv : Inventory) (h : InvGood inv) :
    InvGood (applyOp op inv) := by
  cases op with
  | upFlavor f => exact invGood_upsertFlavor inv f h
  | delFlavor f => exact invGood_deleteFlavor inv f h
  | upPool s => exact invGood_upsertPool inv s h
  | delPool n => exact invGood_deletePool inv n h
  | tryFitOp snap n pss => exact h
  | commitOp n a => exact invGood_commit inv n a h
  | releaseOp n a => exact invGood_release inv n a h

/-- Every reachable inventory satisfies the structural invariant. -/
theorem reachable_invGood (inv : Inventory) (h : Reachable inv) : InvGood inv := by
  induction h with
  | init => intro p hp; cases hp
  | upFlavor f _ ih => exact invGood_upsertFlavor _ f ih
  | delFlavor f _ ih => exact invGood_deleteFlavor _ f ih
  | upPool s _ ih => exact invGood_upsertPool _ s ih
  | delPool n _ ih => exact invGood_deletePool _ n ih
  | commitFit snap n pss a _ _ ih => exact invGood_commit _ n a ih
  | releaseStep n a _ ih => exact invGood_release _ n a ih

/-- Borrowed is never negative. -/
theorem borrowed_nonneg (p : Pool) (r f : String) : 0 ≤ borrowedOf p r f := by
  unfold borrowedOf
  cases findQuota p.spec r f with
  | none => exact le_refl 0
  | some fq => exact le_max_right _ 0

/-- Positive Borrowed means Total strictly exceeds Guaranteed. -/
theorem borrowed_pos_total_gt (p : Pool) (r f : String) (fq : FlavorQuota)
    (hq : findQuota p.spec r f = some fq) (hpos : 0 < borrowedOf p r f) :
    fq.guaranteed < p.usage (r, f) := by
  unfold borrowedOf at hpos
  rw [hq] at hpos
  rcases lt_max_iff.mp hpos with h | h
  · linarith
  · exact absurd h (lt_irrefl 0)

/-- C3: on every reachable state, each of the Resource Inventory operations
(TryFit, Commit, Release, UpsertPool, DeletePool, UpsertFlavor, DeleteFlavor)
preserves the quota-entry invariants: Total stays at most Ceiling for every
entry declaring one, Borrowed is never negative, and Borrowed is positive
only when Total exceeds Guaranteed. -/
theorem C3_operations_preserve_invariants (op : Op) (inv : Inventory) (p : Pool) (r f : String) :
    (Reachable inv → C3Ceil inv ∧ C3Ceil (applyOp op inv)) ∧
    0 ≤ borrowedOf p r f ∧
    (0 < borrowedOf p r f → ∀ fq, findQuota p.spec r f = some fq →
      fq.guaranteed < p.usage (r, f)) := by
  refine ⟨?_, borrowed_nonneg p r f, ?_⟩
  · intro hreach
    have h1 := reachable_invGood inv hreach
    have h2 := invGood_applyOp op inv h1
    exact ⟨fun q hq rq hrq fq hfq c hc => (h1 q hq).2 rq hrq fq hfq c hc,
           fun q hq rq hrq fq hfq c hc => (h2 q hq).2 rq hrq fq hfq c hc⟩
  · intro hpos fq hq
    exact borrowed_pos_total_gt p r f fq hq hpos

/-- Mapping a name-preserving function over the pools keeps their names
unique. -/
theorem nodup_names_map (l : List Pool) (g : Pool → Pool)
    (hg : ∀ p ∈ l, (g p).spec.name = p.spec.name)
    (h : (l.map (fun p => p.spec.name)).Nodup) :
    ((l.map g).map (fun p => p.spec.name)).Nodup := by
  rw [List.map_map]
  have heq : l.map ((fun p => p.spec.name) ∘ g) = l.map (fun p => p.spec.name) :=
    List.map_congr_left (fun a ha => hg a ha)
  rw [heq]
  exact h

/-- `UpsertFlavor` keeps pool names unique. -/
theorem poolNamesOK_upsertFlavor (inv : Inventory) (f : String) (h : PoolNamesOK inv) :
    PoolNamesOK (upsertFlavor inv f) :=
  nodup_names_map inv.pools _ (fun _ _ => rfl) h

/-- `DeleteFlavor` keeps pool names unique. -/
theorem poolNamesOK_deleteFlavor (inv : Inventory) (f : String) (h : PoolNamesOK inv) :
    PoolNamesOK (deleteFlavor inv f) :=
  nodup_names_map inv.pools _ (fun _ _ => rfl) h

/-- `UpsertPool` keeps pool names unique: a replacement keeps the name, an
insertion is guarded by the existence check. -/
theorem poolNamesOK_upsertPool (inv : Inventory) (s : PoolSpec) (h : PoolNamesOK inv) :
    PoolNamesOK (upsertPool inv s) := by
  unfold upsertPool
  by_cases hwf : wellFormed s
  · rw [if_pos hwf]
    by_cases hhp : hasPool inv s.name = true
    · rw [if_pos hhp]
      refine nodup_names_map inv.pools _ ?_ h
      intro p _
      by_cases h1 : p.spec.name = s.name
      · rw [if_pos h1]
        by_cases h2 : usageOK s p.usage
        · rw [if_pos h2]
          exact h1.symm
        · rw [if_neg h2]
      · rw [if_neg h1]
    · rw [if_neg hhp]
      unfold PoolNamesOK
      rw [List.map_append, List.nodup_append]
      refine ⟨h, List.nodup_singleton _, ?_⟩
      intro x hx hx2
      rw [List.mem_map] at hx
      obtain ⟨q, hq, rfl⟩ := hx
      have hs : q.spec.name = s.name := by
        simpa using hx2
      apply hhp
      unfold hasPool
      rw [List.any_eq_true]
      exact ⟨q, hq, by rw [decide_eq_true_eq]; exact hs⟩
  · rw [if_neg hwf]
    exact h

/-- `DeletePool` keeps pool names unique. -/
theorem poolNamesOK_deletePool (inv : Inventory) (n : String) (h : PoolNamesOK inv) :
    PoolNamesOK (deletePool inv n) := by
  unfold deletePool
  by_cases hhp : hasPool inv n = true
  · rw [if_pos hhp]
    exact h.sublist ((List.filter_sublist inv.pools).map (fun p => p.spec.name))
  · rw [if_neg hhp]
    exact h

/-- `Commit` keeps pool names unique. -/
theorem poolNamesOK_commit (inv : Inventory) (n : String) (a : Assignment)
    (h : PoolNamesOK inv) : PoolNamesOK (commit inv n a) := by
  refine nodup_names_map inv.pools _ ?_ h
  intro p _
  by_cases h1 : p.spec.name = n
  · rw [if_pos h1]
    by_cases h2 : usageOK p.spec (addA p.usage a)
    · rw [if_pos h2]
    · rw [if_neg h2]
  · rw [if_neg h1]

/-- `Release` keeps pool names unique. -/
theorem poolNamesOK_release (inv : Inventory) (n : String) (a : Assignment)
    (h : PoolNamesOK inv) : PoolNamesOK (release inv n a) := by
  refine nodup_names_map inv.pools _ ?_ h
  intro p _
  by_cases h1 : p.spec.name = n
  · rw [if_pos h1]
    by_cases h2 : usageOK p.spec (subA p.usage a)
    · rw [if_pos h2]
    · rw [if_neg h2]
  · rw [if_neg h1]

/-- Every reachable inventory has unique pool names. -/
theorem reachable_poolNamesOK (inv : Inventory) (h : Reachable inv) : PoolNamesOK inv := by
  induction h with
  | init => exact List.nodup_nil
  | upFlavor f _ ih => exact poolNamesOK_upsertFlavor _ f ih
  | delFlavor f _ ih => exact poolNamesOK_deleteFlavor _ f ih
  | upPool s _ ih => exact poolNamesOK_upsertPool _ s ih
  | delPool n _ ih => exact poolNamesOK_deletePool _ n ih
  | commitFit snap n pss a _ _ ih => exact poolNamesOK_commit _ n a ih
  | releaseStep n a _ ih => exact poolNamesOK_release _ n a ih

/-- In a list whose keys are unique, searching for the key of a member finds
exactly that member. -/
theorem find?_key_eq {α : Type} (key : α → String) (a : α) :
    ∀ l : List α, (l.map key).Nodup → a ∈ l →
      l.find? (fun x => decide (key x = key a)) = some a := by
  intro l
  induction l with
  | nil => intro _ ha; cases ha
  | cons b t ih =>
    intro hnd ha
    rw [List.map_cons, List.nodup_cons] at hnd
    by_cases hb : key b = key a
    · have hba : b = a := by
        rcases List.mem_cons.mp ha with rfl | hat
        · rfl
        · exfalso
          apply hnd.1
          rw [hb]
          exact List.mem_map_of_mem key hat
      rw [List.find?_cons_of_pos _ (by rw [decide_eq_true_eq]; exact hb)]
      rw [hba]
    · rw [List.find?_cons_of_neg _ (by simp [hb])]
      have hat : a ∈ t := by
        rcases List.mem_cons.mp ha with rfl | hat
        · exact absurd rfl hb
        · exact hat
      exact ih hnd.2 hat

/-- An assignment with unique resource keys touches each usage key through at
most one entry. -/
theorem filter_key_cases (k : UKey) :
    ∀ a : Assignment, (a.map (fun e => e.1)).Nodup →
      (a.filter (fun e => decide ((e.1, e.2.1) = k)) = [] ∨
       ∃ e ∈ a, (e.1, e.2.1) = k ∧
         a.filter (fun e => decide ((e.1, e.2.1) = k)) = [e]) := by
  intro a
  induction a with
  | nil =>
    intro _
    left
    rfl
  | cons e t ih =>
    intro hnd
    rw [List.map_cons, List.nodup_cons] at hnd
    obtain ⟨he1, hndt⟩ := hnd
    by_cases hk : (e.1, e.2.1) = k
    · right
      refine ⟨e, List.mem_cons_self e t, hk, ?_⟩
      rw [List.filter_cons_of_pos (by rw [decide_eq_true_eq]; exact hk)]
      have ht : t.filter (fun e2 => decide ((e2.1, e2.2.1) = k)) = [] := by
        rw [List.filter_eq_nil_iff]
        intro x hx hpx
        rw [decide_eq_true_eq] at hpx
        apply he1
        have hx1 : x.1 = e.1 := by
          have h1 : x.1 = k.1 := congrArg Prod.fst hpx
          have h2 : e.1 = k.1 := congrArg Prod.fst hk
          rw [h1, h2]
        rw [← hx1]
        exact List.mem_map_of_mem (fun e2 => e2.1) hx
      rw [ht]
    · rw [List.filter_cons_of_neg (by simp [hk])]
      rcases ih hndt with h | ⟨e2, he2, hk2, hf⟩
      · left
        exact h
      · right
        exact ⟨e2, List.mem_cons_of_mem e he2, hk2, hf⟩

/-- The cohort borrowing bound holds on every reachable state whose
ceilingless entries are within Guaranteed. -/
theorem cohort_bound_of_entriesOK (inv : Inventory) (co r f : String)
    (hreach : Reachable inv) (hent : EntriesOK inv) : CohortOK inv co r f := by
  have hg := reachable_invGood inv hreach
  unfold CohortOK sumBorrowed sumCeilGap
  apply List.sum_le_sum
  intro p hp
  have hmem : p ∈ inv.pools := (List.mem_filter.mp hp).1
  have hspec := hg p hmem
  unfold borrowedOf
  cases hq0 : findQuota p.spec r f with
  | none => exact le_refl 0
  | some fq =>
    show max (p.usage (r, f) - fq.guaranteed) 0 ≤
      (match fq.ceiling with | some c => c - fq.guaranteed | none => 0)
    unfold findQuota at hq0
    cases hrq : p.spec.resources.find? (fun rq => decide (rq.resource = r)) with
    | none =>
      rw [hrq] at hq0
      cases hq0
    | some rq =>
      rw [hrq] at hq0
      have hrq_mem : rq ∈ p.spec.resources := List.mem_of_find?_eq_some hrq
      have hrq_r : rq.resource = r := by simpa using List.find?_some hrq
      have hfq_mem : fq ∈ rq.flavors := List.mem_of_find?_eq_some hq0
      have hfq_f : fq.name = f := by simpa using List.find?_some hq0
      cases hc : fq.ceiling with
      | some c =>
        show max (p.usage (r, f) - fq.guaranteed) 0 ≤ c - fq.guaranteed
        have hTc : p.usage (rq.resource, fq.name) ≤ c := hspec.2 rq hrq_mem fq hfq_mem c hc
        have hGc : fq.guaranteed ≤ c := (((hspec.1.2 rq hrq_mem).2 fq hfq_mem).2) c hc
        rw [hrq_r, hfq_f] at hTc
        apply max_le
        · linarith
        · linarith
      | none =>
        show max (p.usage (r, f) - fq.guaranteed) 0 ≤ 0
        have hTg := hent p hmem rq hrq_mem fq hfq_mem hc
        rw [hrq_r, hfq_f] at hTg
        apply max_le
        · linarith
        · exact le_refl 0

/-- Committing an assignment that `TryFit` computed on the same live
inventory keeps every ceilingless entry within Guaranteed: the flavor scan
admits a ceilingless flavor only through the no-borrow check against the live
Total, whatever snapshot provided the cohort headroom. -/
theorem entriesOK_commitFit (inv snap : Inventory) (n : String) (pss : List PodSet)
    (a : Assignment) (hreach : Reachable inv) (hent : EntriesOK inv)
    (htf : tryFit inv snap n pss = some a) : EntriesOK (commit inv n a) := by
  have hg := reachable_invGood inv hreach
  have hnames := reachable_poolNamesOK inv hreach
  unfold tryFit at htf
  cases hfp : findPool inv n with
  | none =>
    rw [hfp] at htf
    cases htf
  | some p0 =>
    rw [hfp] at htf
    have htf2 : (if p0.active = true then assignAll snap p0 pss (requiredRes pss) else none) =
        some a := htf
    by_cases hact : p0.active = true
    case neg =>
      rw [if_neg hact] at htf2
      cases htf2
    case pos =>
    rw [if_pos hact] at htf2
    obtain ⟨hmap, hprops⟩ := (assignAll_iff snap p0 pss (requiredRes pss) a).mp htf2
    have hp0mem : p0 ∈ inv.pools := List.mem_of_find?_eq_some hfp
    have hp0name : p0.spec.name = n := by simpa using List.find?_some hfp
    have hwf0 := (hg p0 hp0mem).1
    have handup : (a.map (fun e => e.1)).Nodup := by
      rw [hmap]
      exact (List.nodup_dedup _).filter _
    intro p hp
    simp only [commit, List.mem_map] at hp
    obtain ⟨q, hq, rfl⟩ := hp
    by_cases h1 : q.spec.name = n
    case neg =>
      rw [if_neg h1]
      exact hent q hq
    case pos =>
    by_cases h2 : usageOK q.spec (addA q.usage a)
    case neg =>
      rw [if_pos h1, if_neg h2]
      exact hent q hq
    case pos =>
    rw [if_pos h1, if_pos h2]
    obtain rfl : q = p0 :=
      List.inj_on_of_nodup_map hnames hq hp0mem (by rw [h1, hp0name])
    intro rq hrq fq hfq hcnone
    show addA q.usage a (rq.resource, fq.name) ≤ fq.guaranteed
    unfold addA
    rcases filter_key_cases (rq.resource, fq.name) a handup with hnilf | ⟨e, hea, hek, hfil⟩
    · rw [hnilf]
      simp only [List.map_nil, List.sum_nil, add_zero]
      exact hent q hq rq hrq fq hfq hcnone
    · rw [hfil]
      simp only [List.map_cons, List.map_nil, List.sum_cons, List.sum_nil, add_zero]
      obtain ⟨hq22, hchosen⟩ := hprops e hea
      have he1 : e.1 = rq.resource := congrArg Prod.fst hek
      have he21 : e.2.1 = fq.name := congrArg Prod.snd hek
      rw [he1] at hchosen
      have hcs := (chooseFlavor_iff snap q rq.resource (requestedIn pss rq.resource) e.2.1).mp
        hchosen
      have hflav : flavorsOf q.spec rq.resource = rq.flavors := by
        unfold flavorsOf
        rw [find?_key_eq (fun rq2 => rq2.resource) rq q.spec.resources hwf0.1 hrq]
      rcases hcs with ⟨fq2, hfq2name, hfw⟩ | ⟨_, fq2, hfq2name, hfw⟩
      · obtain ⟨l1, l2, hl, hP, _⟩ := hfw
        have hfq2mem : fq2 ∈ flavorsOf q.spec rq.resource := by
          rw [hl]
          exact List.mem_append_right l1 (List.mem_cons_self fq2 l2)
        rw [hflav] at hfq2mem
        obtain rfl : fq2 = fq :=
          List.inj_on_of_nodup_map (hwf0.2 rq hrq).1 hfq2mem hfq (by rw [hfq2name, he21])
        unfold NoBorrowFits at hP
        rw [hq22, he1]
        linarith
      · exfalso
        obtain ⟨l1, l2, hl, hP, _⟩ := hfw
        have hfq2mem : fq2 ∈ flavorsOf q.spec rq.resource := by
          rw [hl]
          exact List.mem_append_right l1 (List.mem_cons_self fq2 l2)
        rw [hflav] at hfq2mem
        obtain rfl : fq2 = fq :=
          List.inj_on_of_nodup_map (hwf0.2 rq hrq).1 hfq2mem hfq (by rw [hfq2name, he21])
        obtain ⟨c, hcsome, _⟩ := hP
        rw [hcnone] at hcsome
        cases hcsome

/-- C4, counterexample to the claim as stated: a reachable inventory in which
a cohort's total Borrowed exceeds the sum of (Ceiling − Guaranteed) over its
Ceiling-declaring members. Pool A (cohort co, flavor f, no Ceiling) admits
cpu 4 within its Guaranteed 5, then its declaration is updated with
Guaranteed shrunk to 1: Borrowed becomes 3 while no member declares a
Ceiling, so the bound 3 ≤ 0 fails. -/
theorem C4_counterexample_quota_shrink :
    Reachable cexInv3 ∧ ¬ CohortOK cexInv3 "co" "cpu" "f" := by
  constructor
  · exact Reachable.upPool cexSpec2
      (Reachable.commitFit cexInv1 "A" [psReq 4] [("cpu", "f", 4)]
        (Reachable.upPool cexSpec1 (Reachable.upFlavor "f" Reachable.init)) (by decide))
  · decide

/-- C4, amended: on every reachable state in which each ceilingless quota
entry is within its Guaranteed (a side condition every operation except a
Guaranteed-shrinking pool update preserves), each cohort's total Borrowed for
a (resource, flavor) is at most the sum of (Ceiling − Guaranteed) over the
members declaring a Ceiling, members without one being excluded from the
bound; moreover a scheduling step — `Commit` of an assignment `TryFit`
computed against any snapshot, covering two pools of one cohort committing in
the same cycle from the cycle-start snapshot — preserves that side
condition. -/
theorem C4_cohort_bound_amended :
    (∀ (inv : Inventory) (co r f : String), Reachable inv → EntriesOK inv →
      CohortOK inv co r f) ∧
    (∀ (inv snap : Inventory) (n : String) (pss : List PodSet) (a : Assignment),
      Reachable inv → EntriesOK inv → tryFit inv snap n pss = some a →
      EntriesOK (commit inv n a)) := by
  constructor
  · exact cohort_bound_of_entriesOK
  · exact entriesOK_commitFit

/-- Under StrictFIFO a pool's cycle walk admits exactly an order-prefix of
the pending set (the walk stops at the first candidate that is infeasible or
fails persistence), and what remains pending is exactly the rest of the
pending set. -/
theorem runPool_strict_decomp (snap : Inventory) (persist : Nat → Bool) (poolName : String) :
    ∀ (cands : List Workload) (inv : Inventory) (qm : QMgr) (nn : Nat),
      cands = (pendingOf qm poolName).take nn →
      ((pendingOf qm poolName).map (fun w => w.id)).Nodup →
      ∃ k, (runPool snap persist Strategy.strictFIFO poolName inv qm cands).admitted =
              (pendingOf qm poolName).take k ∧
           pendingOf (runPool snap persist Strategy.strictFIFO poolName inv qm cands).qm
              poolName = (pendingOf qm poolName).drop k := by
  intro cands
  induction cands with
  | nil =>
    intro inv qm nn _ _
    exact ⟨0, rfl, rfl⟩
  | cons w rest ih =>
    intro inv qm nn hc hids
    cases nn with
    | zero => cases hc
    | succ m =>
      cases hpend : pendingOf qm poolName with
      | nil =>
        rw [hpend] at hc
        cases hc
      | cons w0 pt =>
        rw [hpend] at hc
        obtain ⟨rfl, hrest⟩ : w0 = w ∧ rest = pt.take m := by
          have h1 : w = w0 := by injection hc
          have h2 : rest = pt.take m := by injection hc
          exact ⟨h1.symm, h2⟩
        rw [hpend] at hids
        rw [List.map_cons, List.nodup_cons] at hids
        simp only [runPool]
        cases htf : tryFit inv snap poolName w0.podSets with
        | none => exact ⟨0, rfl, hpend⟩
        | some a =>
          cases hper : persist w0.id with
          | false => exact ⟨0, rfl, hpend⟩
          | true =>
            have hqm2 : pendingOf (pop qm poolName w0) poolName = pt := by
              have hpop : pendingOf (pop qm poolName w0) poolName =
                  (pendingOf qm poolName).filter (fun x => decide (x.id ≠ w0.id)) := by
                simp [pop, pendingOf]
              rw [hpop, hpend]
              rw [List.filter_cons_of_neg (by simp)]
              rw [List.filter_eq_self]
              intro x hx
              rw [decide_eq_true_eq]
              intro hxw
              apply hids.1
              rw [← hxw]
              exact List.mem_map_of_mem (fun y => y.id) hx
            have hids2 : ((pendingOf (pop qm poolName w0) poolName).map
                (fun y => y.id)).Nodup := by
              rw [hqm2]
              exact hids.2
            obtain ⟨k, ha, hp⟩ := ih (commit inv poolName a) (pop qm poolName w0) m
              (by rw [hqm2]; exact hrest) hids2
            rw [hqm2] at ha hp
            refine ⟨k + 1, ?_, ?_⟩
            · show w0 :: (runPool snap persist Strategy.strictFIFO poolName
                  (commit inv poolName a) (pop qm poolName w0) rest).admitted =
                (w0 :: pt).take (k + 1)
              rw [List.take_succ_cons, ha]
            · show pendingOf (runPool snap persist Strategy.strictFIFO poolName
                  (commit inv poolName a) (pop qm poolName w0) rest).qm poolName =
                (w0 :: pt).drop (k + 1)
              rw [List.drop_succ_cons, hp]

/-- C5: under StrictFIFO, a cycle's walk over a pool admits an order-prefix
of the pool's pending set, and every workload still pending afterwards orders
strictly after every admitted one. Hence no workload is admitted while an
earlier-ordered workload of the same pool is still pending — in particular
never while an earlier-ordered still-pending workload has not been evaluated
and found infeasible: the walk stops at the first candidate that is not
admitted, so an earlier-ordered pending workload simply cannot coexist with a
later admission. -/
theorem C5_strictFIFO_order (snap : Inventory) (persist : Nat → Bool) (poolName : String)
    (inv : Inventory) (qm : QMgr) (nn : Nat)
    (hpair : (pendingOf qm poolName).Pairwise (fun x y => wlLess x y = true))
    (hids : ((pendingOf qm poolName).map (fun w => w.id)).Nodup) :
    (∃ k,
      (runPool snap persist Strategy.strictFIFO poolName inv qm
        ((pendingOf qm poolName).take nn)).admitted = (pendingOf qm poolName).take k ∧
      pendingOf (runPool snap persist Strategy.strictFIFO poolName inv qm
        ((pendingOf qm poolName).take nn)).qm poolName = (pendingOf qm poolName).drop k) ∧
    (∀ w ∈ (runPool snap persist Strategy.strictFIFO poolName inv qm
        ((pendingOf qm poolName).take nn)).admitted,
     ∀ w2 ∈ pendingOf (runPool snap persist Strategy.strictFIFO poolName inv qm
        ((pendingOf qm poolName).take nn)).qm poolName,
      wlLess w w2 = true) := by
  have hdec := runPool_strict_decomp snap persist poolName
    ((pendingOf qm poolName).take nn) inv qm nn rfl hids
  refine ⟨hdec, ?_⟩
  obtain ⟨k, ha, hp⟩ := hdec
  intro w hw w2 hw2
  rw [ha] at hw
  rw [hp] at hw2
  have hpair2 : ((pendingOf qm poolName).take k ++
      (pendingOf qm poolName).drop k).Pairwise (fun x y => wlLess x y = true) := by
    rw [List.take_append_drop]
    exact hpair
  exact (List.pairwise_append.mp hpair2).2.2 w hw w2 hw2

/-- Witness for C5 at a concrete input: pool P1 with pending [wlA, wlB],
where wlA is admitted and wlB is infeasible and stays pending. -/
theorem C5_strictFIFO_order_witness :
    (∃ k,
      (runPool inv1 (fun _ => true) Strategy.strictFIFO "P1" inv1 qm1
        ((pendingOf qm1 "P1").take 2)).admitted = (pendingOf qm1 "P1").take k ∧
      pendingOf (runPool inv1 (fun _ => true) Strategy.strictFIFO "P1" inv1 qm1
        ((pendingOf qm1 "P1").take 2)).qm "P1" = (pendingOf qm1 "P1").drop k) ∧
    (∀ w ∈ (runPool inv1 (fun _ => true) Strategy.strictFIFO "P1" inv1 qm1
        ((pendingOf qm1 "P1").take 2)).admitted,
     ∀ w2 ∈ pendingOf (runPool inv1 (fun _ => true) Strategy.strictFIFO "P1" inv1 qm1
        ((pendingOf qm1 "P1").take 2)).qm "P1",
      wlLess w w2 = true) :=
  C5_strictFIFO_order inv1 (fun _ => true) "P1" inv1 qm1 2 (by decide) (by decide)

/-- Recomputing every active flag against the stored flavor list makes the
flags consistent by construction. -/
theorem activeOK_mapRefresh (inv : Inventory) (fl : List String) :
    ActiveOK ⟨fl, inv.pools.map (refreshed fl)⟩ := by
  intro p hp
  simp only [List.mem_map] at hp
  obtain ⟨q, hq, rfl⟩ := hp
  rfl

/-- `UpsertFlavor` leaves the active flags consistent. -/
theorem activeOK_upsertFlavor (inv : Inventory) (f : String) :
    ActiveOK (upsertFlavor inv f) :=
  activeOK_mapRefresh inv _

/-- `DeleteFlavor` leaves the active flags consistent. -/
theorem activeOK_deleteFlavor (inv : Inventory) (f : String) :
    ActiveOK (deleteFlavor inv f) :=
  activeOK_mapRefresh inv _

/-- `UpsertPool` leaves the active flags consistent. -/
theorem activeOK_upsertPool (inv : Inventory) (s : PoolSpec) (h : ActiveOK inv) :
    ActiveOK (upsertPool inv s) := by
  unfold upsertPool
  by_cases hwf : wellFormed s
  · rw [if_pos hwf]
    by_cases hhp : hasPool inv s.name = true
    · rw [if_pos hhp]
      intro p hp
      simp only [List.mem_map] at hp
      obtain ⟨q, hq, rfl⟩ := hp
      by_cases h1 : q.spec.name = s.name
      · rw [if_pos h1]
        by_cases h2 : usageOK s q.usage
        · rw [if_pos h2]
        · rw [if_neg h2]
          exact h q hq
      · rw [if_neg h1]
        exact h q hq
    · rw [if_neg hhp]
      intro p hp
      rcases List.mem_append.mp hp with hm | hm
      · exact h p hm
      · rw [List.mem_singleton.mp hm]
  · rw [if_neg hwf]
    exact h

/-- `DeletePool` leaves the active flags consistent. -/
theorem activeOK_deletePool (inv : Inventory) (n : String) (h : ActiveOK inv) :
    ActiveOK (deletePool inv n) := by
  unfold deletePool
  by_cases hhp : hasPool inv n = true
  · rw [if_pos hhp]
    intro p hp
    exact h p (List.mem_filter.mp hp).1
  · rw [if_neg hhp]
    exact h

/-- `Commit` leaves the active flags consistent. -/
theorem activeOK_commit (inv : Inventory) (n : String) (a : Assignment) (h : ActiveOK inv) :
    ActiveOK (commit inv n a) := by
  intro p hp
  simp only [commit, List.mem_map] at hp
  obtain ⟨q, hq, rfl⟩ := hp
  by_cases h1 : q.spec.name = n
  · rw [if_pos h1]
    by_cases h2 : usageOK q.spec (addA q.usage a)
    · rw [if_pos h2]
      exact h q hq
    · rw [if_neg h2]
      exact h q hq
  · rw [if_neg h1]
    exact h q hq

/-- `Release` leaves the active flags consistent. -/
theorem activeOK_release (inv : Inventory) (n : String) (a : Assignment) (h : ActiveOK inv) :
    ActiveOK (release inv n a) := by
  intro p hp
  simp only [release, List.mem_map] at hp
  obtain ⟨q, hq, rfl⟩ := hp
  by_cases h1 : q.spec.name = n
  · rw [if_pos h1]
    by_cases h2 : usageOK q.spec (subA q.usage a)
    · rw [if_pos h2]
      exact h q hq
    · rw [if_neg h2]
      exact h q hq
  · rw [if_neg h1]
    exact h q hq

/-- On every reachable inventory the stored active flags agree with flavor
availability. -/
theorem reachable_activeOK (inv : Inventory) (h : Reachable inv) : ActiveOK inv := by
  induction h with
  | init => intro p hp; cases hp
  | upFlavor f _ _ => exact activeOK_upsertFlavor _ f
  | delFlavor f _ _ => exact activeOK_deleteFlavor _ f
  | upPool s _ ih => exact activeOK_upsertPool _ s ih
  | delPool n _ ih => exact activeOK_deletePool _ n ih
  | commitFit snap n pss a _ _ ih => exact activeOK_commit _ n a ih
  | releaseStep n a _ ih => exact activeOK_release _ n a ih

/-- Searching a name in a list mapped by a name-preserving function finds
the image of the original hit. -/
theorem findPool_map (g : Pool → Pool) (hg : ∀ p, (g p).spec.name = p.spec.name) :
    ∀ (l : List Pool) (n : String),
      (l.map g).find? (fun p => decide (p.spec.name = n)) =
        (l.find? (fun p => decide (p.spec.name = n))).map g := by
  intro l n
  induction l with
  | nil => rfl
  | cons b t ih =>
    by_cases hb : b.spec.name = n
    · rw [List.map_cons,
        List.find?_cons_of_pos _ (by rw [decide_eq_true_eq, hg]; exact hb),
        List.find?_cons_of_pos _ (by rw [decide_eq_true_eq]; exact hb)]
      rfl
    · rw [List.map_cons,
        List.find?_cons_of_neg _ (by simp [hg, hb]),
        List.find?_cons_of_neg _ (by simp [hb])]
      exact ih

/-- `DeleteFlavor` transforms each pool by recomputing only its active
flag. -/
theorem findPool_deleteFlavor (inv : Inventory) (f n : String) :
    findPool (deleteFlavor inv f) n =
      (findPool inv n).map (refreshed (inv.flavors.filter (fun x => decide (x ≠ f)))) :=
  findPool_map (refreshed (inv.flavors.filter (fun x => decide (x ≠ f))))
    (fun _ => rfl) inv.pools n

/-- `UpsertFlavor` transforms each pool by recomputing only its active
flag. -/
theorem findPool_upsertFlavor (inv : Inventory) (f n : String) :
    findPool (upsertFlavor inv f) n =
      (findPool inv n).map
        (refreshed (if f ∈ inv.flavors then inv.flavors else f :: inv.flavors)) :=
  findPool_map (refreshed (if f ∈ inv.flavors then inv.flavors else f :: inv.flavors))
    (fun _ => rfl) inv.pools n

/-- C8: deleting a flavor a pool references makes that pool inactive: new
admissions are blocked (`TryFit` returns false for any request) and pending
workloads are reported with reason Inadmissible and message exactly
`ClusterQueue <name> is inactive`, while the declaration, every usage value
(Total and Borrowed per (resource, flavor)) and both counters stay unchanged;
a subsequent `UpsertFlavor` of the same flavor re-activates every pool that
references it (shown for any pool that was active before the deletion). -/
theorem C8_delete_flavor_freezes (inv snap : Inventory) (fname n : String)
    (pss : List PodSet) :
    (∀ p, findPool inv n = some p → fname ∈ refsOf p.spec →
      ∃ p2, findPool (deleteFlavor inv fname) n = some p2 ∧
        p2.active = false ∧
        p2.spec = p.spec ∧
        (∀ r f2, p2.usage (r, f2) = p.usage (r, f2) ∧
          borrowedOf p2 r f2 = borrowedOf p r f2) ∧
        p2.pendingCount = p.pendingCount ∧
        p2.admittedCount = p.admittedCount ∧
        tryFit (deleteFlavor inv fname) snap n pss = none ∧
        frozenReport (deleteFlavor inv fname) n =
          some ("Inadmissible", "ClusterQueue " ++ n ++ " is inactive")) ∧
    (∀ p, Reachable inv → findPool inv n = some p → p.active = true →
      ∃ p3, findPool (upsertFlavor (deleteFlavor inv fname) fname) n = some p3 ∧
        p3.active = true ∧ p3.spec = p.spec ∧
        (∀ r f2, p3.usage (r, f2) = p.usage (r, f2))) := by
  constructor
  · intro p hp href
    have hfp2 : findPool (deleteFlavor inv fname) n =
        some (refreshed (inv.flavors.filter (fun x => decide (x ≠ fname))) p) := by
      rw [findPool_deleteFlavor, hp]
      rfl
    have hact : (refreshed (inv.flavors.filter (fun x => decide (x ≠ fname))) p).active
        = false := by
      rw [Bool.eq_false_iff]
      intro hall
      simp only [refreshed, activeFor] at hall
      rw [List.all_eq_true] at hall
      have h2 := hall fname href
      rw [decide_eq_true_eq] at h2
      have h3 := (List.mem_filter.mp h2).2
      rw [decide_eq_true_eq] at h3
      exact h3 rfl
    refine ⟨_, hfp2, hact, rfl, fun r f2 => ⟨rfl, rfl⟩, rfl, rfl, ?_, ?_⟩
    · have hred : tryFit (deleteFlavor inv fname) snap n pss =
          if (refreshed (inv.flavors.filter (fun x => decide (x ≠ fname))) p).active = true
          then assignAll snap (refreshed (inv.flavors.filter (fun x => decide (x ≠ fname))) p)
            pss (requiredRes pss)
          else none := by
        unfold tryFit
        rw [hfp2]
      rw [hred, if_neg (by rw [hact]; exact Bool.false_ne_true)]
    · have hred : frozenReport (deleteFlavor inv fname) n =
          if (refreshed (inv.flavors.filter (fun x => decide (x ≠ fname))) p).active = true
          then none
          else some ("Inadmissible", "ClusterQueue " ++ n ++ " is inactive") := by
        unfold frozenReport
        rw [hfp2]
      rw [hred, if_neg (by rw [hact]; exact Bool.false_ne_true)]
  · intro p hreach hp hactive
    have hactive2 : activeFor inv.flavors p.spec = true := by
      rw [← reachable_activeOK inv hreach p (List.mem_of_find?_eq_some hp)]
      exact hactive
    have hnotmem : fname ∉ inv.flavors.filter (fun x => decide (x ≠ fname)) := by
      intro h
      have h2 := (List.mem_filter.mp h).2
      rw [decide_eq_true_eq] at h2
      exact h2 rfl
    have hfp3 : findPool (upsertFlavor (deleteFlavor inv fname) fname) n =
        some (refreshed (fname :: inv.flavors.filter (fun x => decide (x ≠ fname)))
          (refreshed (inv.flavors.filter (fun x => decide (x ≠ fname))) p)) := by
      rw [findPool_upsertFlavor, findPool_deleteFlavor, hp]
      show some _ = some _
      rw [Option.some.injEq]
      have hflv : (deleteFlavor inv fname).flavors =
          inv.flavors.filter (fun x => decide (x ≠ fname)) := rfl
      rw [hflv, if_neg hnotmem]
    refine ⟨_, hfp3, ?_, rfl, fun r f2 => rfl⟩
    show activeFor (fname :: inv.flavors.filter (fun x => decide (x ≠ fname))) p.spec = true
    simp only [activeFor] at hactive2 ⊢
    rw [List.all_eq_true] at hactive2 ⊢
    intro x hx
    rw [decide_eq_true_eq]
    have hxmem := hactive2 x hx
    rw [decide_eq_true_eq] at hxmem
    by_cases hxf : x = fname
    · rw [hxf]
      exact List.mem_cons_self _ _
    · apply List.mem_cons_of_mem
      rw [List.mem_filter]
      exact ⟨hxmem, by rw [decide_eq_true_eq]; exact hxf⟩

end KModel
